import Mathlib

/-!
Verification of the move-search engine of the chess-multiplayer-ai repository.

The repository contains two near-duplicate engine variants:
* `src/lib/engine.ts` (`evaluateBoard`, `getPieceValue`, `minimax`,
  `getBestMove`) using integer sentinels -9999/9999 and windows -10000/10000;
* `src/lib/chess-ai` (`calculatePosition`, `evaluateBoard` (the search),
  `getBestMove`) using JavaScript `-Infinity`/`Infinity`.

The chess rules collaborator (`chess.js`) is external to the repository; the
engine is generic over it, so it is embedded here as a `Rules` record
providing legal-move enumeration, move application and the board/turn view
of a position.  Difficulties are strings at the JavaScript runtime, so they
are embedded as `String`.
-/

namespace Engine

/-- Piece kinds, as the `type` field of a `chess.js` piece. -/
inductive PieceType where
  | p | n | b | r | q | k
deriving DecidableEq

/-- Piece colours, as the `color` field of a `chess.js` piece (`'w'`/`'b'`). -/
inductive Color where
  | w | b
deriving DecidableEq

/-- A `chess.js` piece: `{ type, color }`. -/
structure Piece where
  type : PieceType
  color : Color
deriving DecidableEq

/-- `PIECE_VALUES` table from `src/lib/engine.ts`:
`{ p: 10, n: 30, b: 30, r: 50, q: 90, k: 900 }`. -/
def PIECE_VALUES : PieceType → Int
  | .p => 10
  | .n => 30
  | .b => 30
  | .r => 50
  | .q => 90
  | .k => 900

/-- `pieceValues` table from the `chess-ai` variant:
`{ p: 10, r: 50, n: 30, b: 30, q: 90, k: 900 }`. -/
def pieceValues : PieceType → Int
  | .p => 10
  | .r => 50
  | .n => 30
  | .b => 30
  | .q => 90
  | .k => 900

/-- The 8x8 array returned by `game.board()`: rows of optional pieces. -/
abbrev Board := List (List (Option Piece))

/-- `board[i][j]` (an in-range access on the 8x8 `chess.js` board). -/
def bAt (bd : Board) (i j : Nat) : Option Piece :=
  (bd.getD i []).getD j none

/-- The part of a `chess.js` game the evaluators read: `game.board()` and
`game.turn()`. -/
structure GView where
  board : Board
  turn : Color
deriving DecidableEq

/-- `getPieceValue` from `src/lib/engine.ts`: 0 for an empty square, else the
table value, negated for a black piece.  (The `|| 0` fallback in the source
is unreachable: every `chess.js` piece type is a key of `PIECE_VALUES`.) -/
def getPieceValue : Option Piece → Int
  | none => 0
  | some pc =>
    let val := PIECE_VALUES pc.type
    if pc.color = Color.w then val else -val

/-- `evaluateBoard` from `src/lib/engine.ts`: the double loop
`for i in 0..7, for j in 0..7` summing `getPieceValue(board[i][j])`. -/
def evaluateBoard (g : GView) : Int :=
  (List.range 8).foldl
    (fun acc i =>
      (List.range 8).foldl (fun acc2 j => acc2 + getPieceValue (bAt g.board i j)) acc)
    0

/-- The per-square contribution of the `chess-ai` material loop body:
`if (piece) totalValue += piece.color === 'w' ? val : -val` (a skipped
empty square contributes 0). -/
def calcPieceScore : Option Piece → Int
  | none => 0
  | some pc =>
    if pc.color = Color.w then pieceValues pc.type else -(pieceValues pc.type)

/-- `calculatePosition` from the `chess-ai` variant: the same material double
loop (skipping empty squares), then the total is negated when it is Black's
turn: `return game.turn() === 'w' ? totalValue : -totalValue`. -/
def calculatePosition (g : GView) : Int :=
  let totalValue :=
    (List.range 8).foldl
      (fun acc i =>
        (List.range 8).foldl
          (fun acc2 j => acc2 + calcPieceScore (bAt g.board i j))
          acc)
      0
  if g.turn = Color.w then totalValue else -totalValue

/-- The external rules collaborator (`chess.js`), as used by the engine:
`game.moves()`, `game.move(m)` (with `game.undo()` restoring the previous
position), and the board/turn view of a position. -/
structure Rules (Pos Move : Type) where
  moves : Pos → List Move
  apply : Pos → Move → Pos
  view : Pos → GView

variable {Pos Move : Type}

/-- The maximizing branch of `minimax` in `src/lib/engine.ts`:
iterate the move list with `bestEval := max bestEval (child …)`,
`alpha := max alpha bestEval`, breaking once `beta <= alpha`.
`child m a b` is the recursive call on the position after `m`. -/
def maxLoop (child : Move → Int → Int → Int) (beta : Int) :
    List Move → Int → Int → Int
  | [], best, _ => best
  | m :: rest, best, alpha =>
    let best2 := max best (child m alpha beta)
    let alpha2 := max alpha best2
    if beta ≤ alpha2 then best2 else maxLoop child beta rest best2 alpha2

/-- The minimizing branch of `minimax` in `src/lib/engine.ts`. -/
def minLoop (child : Move → Int → Int → Int) (alpha : Int) :
    List Move → Int → Int → Int
  | [], best, _ => best
  | m :: rest, best, beta =>
    let best2 := min best (child m alpha beta)
    let beta2 := min beta best2
    if beta2 ≤ alpha then best2 else minLoop child alpha rest best2 beta2

/-- `minimax(game, depth, alpha, beta, isMaximizingPlayer)` from
`src/lib/engine.ts`.  `depth == 0` returns `-evaluateBoard(game)`;
otherwise the max/min loop over `game.moves()` with initial best
`-9999` resp. `9999`. -/
def minimax (R : Rules Pos Move) : Nat → Pos → Int → Int → Bool → Int
  | 0, p, _, _, _ => -(evaluateBoard (R.view p))
  | d + 1, p, alpha, beta, true =>
    maxLoop (fun m a b => minimax R d (R.apply p m) a b false) beta (R.moves p) (-9999) alpha
  | d + 1, p, alpha, beta, false =>
    minLoop (fun m a b => minimax R d (R.apply p m) a b true) alpha (R.moves p) 9999 beta

/-- The root loop of `getBestMove` in `src/lib/engine.ts`: the running best
move is replaced exactly when the new score is strictly greater
(`boardValue > bestValue`). -/
def rootLoop (score : Move → Int) :
    List Move → Option Move → Int → Option Move × Int
  | [], best, bv => (best, bv)
  | m :: rest, best, bv =>
    if bv < score m then rootLoop score rest (some m) (score m)
    else rootLoop score rest best bv

/-- The score `getBestMove` in `src/lib/engine.ts` assigns to a root move:
`minimax(position after m, depth - 1, -10000, 10000, false)` where the
depth is 1/2/3 for Easy/Hard and 3 for anything else. -/
def rootScore (R : Rules Pos Move) (difficulty : String) (p : Pos) (m : Move) : Int :=
  minimax R
    ((if difficulty = "Easy" then 1 else if difficulty = "Hard" then 2 else 3) - 1)
    (R.apply p m) (-10000) 10000 false

/-- `getBestMove(game, difficulty)` from `src/lib/engine.ts`.  The source
returns a SAN string with `''` for "no move"; here `Option Move` with
`none` for `''`.  `rnd` models the draw `Math.floor(Math.random() *
moves.length)` of the Beginner branch (so `rnd < moves.length` whenever
`Math.random () < 1`).  Difficulties are runtime strings; any string other
than `"Beginner"`/`"Easy"`/`"Hard"` falls through the conditional
expression to depth 3.  The final `bestMove || moves[0]` is the `match`. -/
def getBestMove (R : Rules Pos Move) (p : Pos) (difficulty : String) (rnd : Nat) :
    Option Move :=
  let ms := R.moves p
  if ms.length = 0 then none
  else if difficulty = "Beginner" then ms.get? rnd
  else
    let res := rootLoop (fun m => rootScore R difficulty p m) ms none (-9999)
    match res.1 with
    | some m => some m
    | none => ms.head?

/-! ### The `chess-ai` variant

Its search values are JavaScript numbers that can be `-Infinity`/`Infinity`;
only integers and the two infinities occur (no NaN arises from `Math.max`,
`Math.min`, negation and comparison of such values), so the value domain is
embedded as the integers extended with the two infinities. -/

/-- JavaScript numeric values used by the `chess-ai` variant: integers plus
`-Infinity` and `Infinity`. -/
inductive JVal where
  | negInf
  | fin (z : Int)
  | posInf
deriving DecidableEq

/-- `a <= b` on `JVal`, as JavaScript `<=` on these values. -/
def jle : JVal → JVal → Bool
  | .negInf, _ => true
  | .fin _, .negInf => false
  | .fin a, .fin b => a ≤ b
  | .fin _, .posInf => true
  | .posInf, .posInf => true
  | .posInf, _ => false

/-- `a < b` on `JVal`; for these values (no NaN) it is `!(b <= a)`. -/
def jlt (a b : JVal) : Bool := !(jle b a)

/-- `Math.max` on `JVal`. -/
def jmax (a b : JVal) : JVal := if jle a b then b else a

/-- `Math.min` on `JVal`. -/
def jmin (a b : JVal) : JVal := if jle a b then a else b

/-- Unary minus on `JVal`. -/
def jneg : JVal → JVal
  | .negInf => .posInf
  | .fin z => .fin (-z)
  | .posInf => .negInf

/-- Maximizing branch of the `chess-ai` search `evaluateBoard`. -/
def jmaxLoop (child : Move → JVal → JVal → JVal) (beta : JVal) :
    List Move → JVal → JVal → JVal
  | [], best, _ => best
  | m :: rest, best, alpha =>
    let best2 := jmax best (child m alpha beta)
    let alpha2 := jmax alpha best2
    if jle beta alpha2 then best2 else jmaxLoop child beta rest best2 alpha2

/-- Minimizing branch of the `chess-ai` search `evaluateBoard`. -/
def jminLoop (child : Move → JVal → JVal → JVal) (alpha : JVal) :
    List Move → JVal → JVal → JVal
  | [], best, _ => best
  | m :: rest, best, beta =>
    let best2 := jmin best (child m alpha beta)
    let beta2 := jmin beta best2
    if jle beta2 alpha then best2 else jminLoop child alpha rest best2 beta2

/-- `evaluateBoard(game, depth, alpha, beta, isMaximizing)` from the
`chess-ai` variant: `depth == 0` returns `calculatePosition(game)`,
otherwise the max/min loop with initial best `-Infinity`/`Infinity`. -/
def evaluateBoardB (R : Rules Pos Move) : Nat → Pos → JVal → JVal → Bool → JVal
  | 0, p, _, _, _ => .fin (calculatePosition (R.view p))
  | d + 1, p, alpha, beta, true =>
    jmaxLoop (fun m a b => evaluateBoardB R d (R.apply p m) a b false) beta
      (R.moves p) .negInf alpha
  | d + 1, p, alpha, beta, false =>
    jminLoop (fun m a b => evaluateBoardB R d (R.apply p m) a b true) alpha
      (R.moves p) .posInf beta

/-- Root loop of the `chess-ai` `getBestMove` (strict `>` against the
running best, initial best value `-Infinity`). -/
def jrootLoop (score : Move → JVal) :
    List Move → Option Move → JVal → Option Move × JVal
  | [], best, bv => (best, bv)
  | m :: rest, best, bv =>
    if jlt bv (score m) then jrootLoop score rest (some m) (score m)
    else jrootLoop score rest best bv

/-- The score the `chess-ai` `getBestMove` assigns to a root move:
`-evaluateBoard(after m, depth - 1, -Infinity, Infinity, false)` (note the
extra negation compared with `engine.ts`), where the depth is 1/2/3 for
Easy/Hard and 3 for anything else. -/
def rootScoreB (R : Rules Pos Move) (difficulty : String) (p : Pos) (m : Move) : JVal :=
  jneg
    (evaluateBoardB R
      ((if difficulty = "Easy" then 1 else if difficulty = "Hard" then 2 else 3) - 1)
      (R.apply p m) .negInf .posInf false)

/-- `getBestMove(game, difficulty)` from the `chess-ai` variant. -/
def getBestMoveB (R : Rules Pos Move) (p : Pos) (difficulty : String) (rnd : Nat) :
    Option Move :=
  let ms := R.moves p
  if ms.length = 0 then none
  else if difficulty = "Beginner" then ms.get? rnd
  else
    let res := jrootLoop (fun m => rootScoreB R difficulty p m) ms none .negInf
    match res.1 with
    | some m => some m
    | none => ms.head?

/-! ### Unpruned reference search

`minimaxNP` is `minimax` from `src/lib/engine.ts` with the `beta <= alpha`
cutoff (and the then-unused window) removed: the plain fixed-depth minimax
over the same move order, with the same `-9999`/`9999` no-move sentinels. -/

/-- Maximizing loop without pruning. -/
def maxLoopNP (child : Move → Int) : List Move → Int → Int
  | [], best => best
  | m :: rest, best => maxLoopNP child rest (max best (child m))

/-- Minimizing loop without pruning. -/
def minLoopNP (child : Move → Int) : List Move → Int → Int
  | [], best => best
  | m :: rest, best => minLoopNP child rest (min best (child m))

/-- The plain (unpruned) fixed-depth minimax corresponding to `minimax`. -/
def minimaxNP (R : Rules Pos Move) : Nat → Pos → Bool → Int
  | 0, p, _ => -(evaluateBoard (R.view p))
  | d + 1, p, true =>
    maxLoopNP (fun m => minimaxNP R d (R.apply p m) false) (R.moves p) (-9999)
  | d + 1, p, false =>
    minLoopNP (fun m => minimaxNP R d (R.apply p m) true) (R.moves p) 9999

/-- The root score of `getBestMove` computed without pruning. -/
def rootScoreNP (R : Rules Pos Move) (difficulty : String) (p : Pos) (m : Move) : Int :=
  minimaxNP R
    ((if difficulty = "Easy" then 1 else if difficulty = "Hard" then 2 else 3) - 1)
    (R.apply p m) false

/-- `getBestMove` with the unpruned search in place of the pruned one. -/
def getBestMoveNP (R : Rules Pos Move) (p : Pos) (difficulty : String) (rnd : Nat) :
    Option Move :=
  let ms := R.moves p
  if ms.length = 0 then none
  else if difficulty = "Beginner" then ms.get? rnd
  else
    let res := rootLoop (fun m => rootScoreNP R difficulty p m) ms none (-9999)
    match res.1 with
    | some m => some m
    | none => ms.head?

/-! ### Unpruned reference for the `chess-ai` search

`evaluateBoardBNP` is the `chess-ai` search with the `beta <= alpha`
cutoff (and the then-unused window) removed, over the same move order,
with the same `-Infinity`/`Infinity` no-move sentinels.  `evalBInt` and
`evalBIntNP` are integer images of the two (used to transfer the pruning
equivalence already proved over `Int`): the infinities map to ±9999,
which sit strictly outside every bounded evaluation. -/

/-- Maximizing `chess-ai` loop without pruning. -/
def jmaxLoopNP (child : Move → JVal) : List Move → JVal → JVal
  | [], best => best
  | m :: rest, best => jmaxLoopNP child rest (jmax best (child m))

/-- Minimizing `chess-ai` loop without pruning. -/
def jminLoopNP (child : Move → JVal) : List Move → JVal → JVal
  | [], best => best
  | m :: rest, best => jminLoopNP child rest (jmin best (child m))

/-- The plain (unpruned) fixed-depth minimax corresponding to the
`chess-ai` search `evaluateBoardB`. -/
def evaluateBoardBNP (R : Rules Pos Move) : Nat → Pos → Bool → JVal
  | 0, p, _ => .fin (calculatePosition (R.view p))
  | d + 1, p, true =>
    jmaxLoopNP (fun m => evaluateBoardBNP R d (R.apply p m) false) (R.moves p) .negInf
  | d + 1, p, false =>
    jminLoopNP (fun m => evaluateBoardBNP R d (R.apply p m) true) (R.moves p) .posInf

/-- The `chess-ai` root score computed without pruning. -/
def rootScoreBNP (R : Rules Pos Move) (difficulty : String) (p : Pos) (m : Move) : JVal :=
  jneg
    (evaluateBoardBNP R
      ((if difficulty = "Easy" then 1 else if difficulty = "Hard" then 2 else 3) - 1)
      (R.apply p m) false)

/-- The `chess-ai` `getBestMove` with the unpruned search in place of the
pruned one. -/
def getBestMoveBNP (R : Rules Pos Move) (p : Pos) (difficulty : String) (rnd : Nat) :
    Option Move :=
  let ms := R.moves p
  if ms.length = 0 then none
  else if difficulty = "Beginner" then ms.get? rnd
  else
    let res := jrootLoop (fun m => rootScoreBNP R difficulty p m) ms none .negInf
    match res.1 with
    | some m => some m
    | none => ms.head?

/-- Integer image of the pruned `chess-ai` search: same loops as
`minimax`, but with `calculatePosition` at the leaf (un-negated) and the
infinities replaced by the out-of-range sentinels ±9999. -/
def evalBInt (R : Rules Pos Move) : Nat → Pos → Int → Int → Bool → Int
  | 0, p, _, _, _ => calculatePosition (R.view p)
  | d + 1, p, alpha, beta, true =>
    maxLoop (fun m a b => evalBInt R d (R.apply p m) a b false) beta (R.moves p) (-9999) alpha
  | d + 1, p, alpha, beta, false =>
    minLoop (fun m a b => evalBInt R d (R.apply p m) a b true) alpha (R.moves p) 9999 beta

/-- Integer image of the unpruned `chess-ai` search. -/
def evalBIntNP (R : Rules Pos Move) : Nat → Pos → Bool → Int
  | 0, p, _ => calculatePosition (R.view p)
  | d + 1, p, true =>
    maxLoopNP (fun m => evalBIntNP R d (R.apply p m) false) (R.moves p) (-9999)
  | d + 1, p, false =>
    minLoopNP (fun m => evalBIntNP R d (R.apply p m) true) (R.moves p) 9999

/-- Projection of `chess-ai` values to their integer image: the
infinities go to the sentinels ±9999. -/
def jproj : JVal → Int
  | .negInf => -9999
  | .fin z => z
  | .posInf => 9999

/-- `chess-ai` values whose projection is faithful: the infinities, and
finite values within ±9998 (as all bounded evaluations are). -/
def JGood : JVal → Prop
  | .negInf => True
  | .fin z => -9998 ≤ z ∧ z ≤ 9998
  | .posInf => True

/-! ### Spec-side reference definitions

These follow the specification's words, for comparison with the code: the
side-to-move-independent material count, and the plain minimax in which
White is the maximizing side (the spec's convention (b): "White is
maximizer, Black is minimizer", with the evaluator always White-positive),
read from the perspective of a given side. -/

/-- Spec: "piece value if White piece, negative piece value if Black piece,
0 if empty" with the table pawn 10, knight 30, bishop 30, rook 50, queen
90, king 900. -/
def pieceScoreSpec : Option Piece → Int
  | none => 0
  | some pc =>
    let val : Int :=
      match pc.type with
      | .p => 10
      | .n => 30
      | .b => 30
      | .r => 50
      | .q => 90
      | .k => 900
    if pc.color = Color.w then val else -val

/-- Spec: "Score = sum over all squares of (piece value if White piece,
negative piece value if Black piece, 0 if empty)". -/
def specMaterial (bd : Board) : Int :=
  (bd.map fun row => (row.map pieceScoreSpec).sum).sum

/-- The other colour. -/
def flipColor : Color → Color
  | .w => .b
  | .b => .w

/-- Spec-convention plain minimax: the side to move at the node moves next,
White maximizes and Black minimizes the White-positive material score;
same `-9999`/`9999` no-move sentinels and move order as the engine. -/
def specMM (R : Rules Pos Move) : Nat → Pos → Color → Int
  | 0, p, _ => evaluateBoard (R.view p)
  | d + 1, p, .w =>
    maxLoopNP (fun m => specMM R d (R.apply p m) .b) (R.moves p) (-9999)
  | d + 1, p, .b =>
    minLoopNP (fun m => specMM R d (R.apply p m) .w) (R.moves p) 9999

/-- +1 for White, -1 for Black. -/
def sideSign : Color → Int
  | .w => 1
  | .b => -1

/-- The claimed root score of a move: the depth-limited minimax value of
the position after the move, taken from the perspective of the side `s`
to move at the root (who is the mover of `m`). -/
def specRootScore (R : Rules Pos Move) (d : Nat) (p : Pos) (m : Move) : Int :=
  let s := (R.view p).turn
  sideSign s * specMM R (d - 1) (R.apply p m) (flipColor s)

/-! ### Stateful embedding of the apply/undo discipline

The source mutates one shared `game`: `game.move(m)` pushes the previous
position on the undo stack and `game.undo()` pops it.  `GameSt` makes that
state explicit; the stateful search threads it and is used to verify that
the search restores the caller's position. -/

/-- The mutable `chess.js` game: current position plus undo stack. -/
structure GameSt (Pos : Type) where
  cur : Pos
  hist : List Pos
deriving DecidableEq

/-- `game.move(m)`: apply `m`, remembering the previous position. -/
def moveS (R : Rules Pos Move) (m : Move) (g : GameSt Pos) : GameSt Pos :=
  ⟨R.apply g.cur m, g.cur :: g.hist⟩

/-- `game.undo()`: restore the position before the most recent `move`. -/
def undoS (g : GameSt Pos) : GameSt Pos :=
  match g.hist with
  | [] => g
  | q :: t => ⟨q, t⟩

/-- Stateful maximizing branch of `minimax`: `game.move(m)`, recurse,
`game.undo()`, update `bestEval`/`alpha`, break on `beta <= alpha`. -/
def maxLoopS (R : Rules Pos Move)
    (child : Move → Int → Int → GameSt Pos → Int × GameSt Pos) (beta : Int) :
    List Move → Int → Int → GameSt Pos → Int × GameSt Pos
  | [], best, _, g => (best, g)
  | m :: rest, best, alpha, g =>
    let r := child m alpha beta (moveS R m g)
    let g2 := undoS r.2
    let best2 := max best r.1
    let alpha2 := max alpha best2
    if beta ≤ alpha2 then (best2, g2) else maxLoopS R child beta rest best2 alpha2 g2

/-- Stateful minimizing branch of `minimax`. -/
def minLoopS (R : Rules Pos Move)
    (child : Move → Int → Int → GameSt Pos → Int × GameSt Pos) (alpha : Int) :
    List Move → Int → Int → GameSt Pos → Int × GameSt Pos
  | [], best, _, g => (best, g)
  | m :: rest, best, beta, g =>
    let r := child m alpha beta (moveS R m g)
    let g2 := undoS r.2
    let best2 := min best r.1
    let beta2 := min beta best2
    if beta2 ≤ alpha then (best2, g2) else minLoopS R child alpha rest best2 beta2 g2

/-- Stateful `minimax` from `src/lib/engine.ts`, threading the mutated game. -/
def minimaxS (R : Rules Pos Move) : Nat → Int → Int → Bool → GameSt Pos → Int × GameSt Pos
  | 0, _, _, _, g => (-(evaluateBoard (R.view g.cur)), g)
  | d + 1, alpha, beta, true, g =>
    maxLoopS R (fun _ a b g' => minimaxS R d a b false g') beta (R.moves g.cur) (-9999) alpha g
  | d + 1, alpha, beta, false, g =>
    minLoopS R (fun _ a b g' => minimaxS R d a b true g') alpha (R.moves g.cur) 9999 beta g

/-- Stateful root loop of `getBestMove` from `src/lib/engine.ts`. -/
def rootLoopS (R : Rules Pos Move) (d : Nat) :
    List Move → Option Move → Int → GameSt Pos → Option Move × Int × GameSt Pos
  | [], best, bv, g => (best, bv, g)
  | m :: rest, best, bv, g =>
    let r := minimaxS R d (-10000) 10000 false (moveS R m g)
    let g2 := undoS r.2
    if bv < r.1 then rootLoopS R d rest (some m) r.1 g2
    else rootLoopS R d rest best bv g2

/-- Stateful `getBestMove` from `src/lib/engine.ts`: also returns the final
state of the game object passed in. -/
def getBestMoveS (R : Rules Pos Move) (difficulty : String) (rnd : Nat) (g : GameSt Pos) :
    Option Move × GameSt Pos :=
  let ms := R.moves g.cur
  if ms.length = 0 then (none, g)
  else if difficulty = "Beginner" then (ms.get? rnd, g)
  else
    let depth : Nat := if difficulty = "Easy" then 1 else if difficulty = "Hard" then 2 else 3
    let res := rootLoopS R (depth - 1) ms none (-9999) g
    match res.1 with
    | some m => (some m, res.2.2)
    | none => (ms.head?, res.2.2)

/-- Stateful maximizing branch of the `chess-ai` search. -/
def jmaxLoopS (R : Rules Pos Move)
    (child : Move → JVal → JVal → GameSt Pos → JVal × GameSt Pos) (beta : JVal) :
    List Move → JVal → JVal → GameSt Pos → JVal × GameSt Pos
  | [], best, _, g => (best, g)
  | m :: rest, best, alpha, g =>
    let r := child m alpha beta (moveS R m g)
    let g2 := undoS r.2
    let best2 := jmax best r.1
    let alpha2 := jmax alpha best2
    if jle beta alpha2 then (best2, g2) else jmaxLoopS R child beta rest best2 alpha2 g2

/-- Stateful minimizing branch of the `chess-ai` search. -/
def jminLoopS (R : Rules Pos Move)
    (child : Move → JVal → JVal → GameSt Pos → JVal × GameSt Pos) (alpha : JVal) :
    List Move → JVal → JVal → GameSt Pos → JVal × GameSt Pos
  | [], best, _, g => (best, g)
  | m :: rest, best, beta, g =>
    let r := child m alpha beta (moveS R m g)
    let g2 := undoS r.2
    let best2 := jmin best r.1
    let beta2 := jmin beta best2
    if jle beta2 alpha then (best2, g2) else jminLoopS R child alpha rest best2 beta2 g2

/-- Stateful `evaluateBoard` search of the `chess-ai` variant. -/
def evaluateBoardSB (R : Rules Pos Move) : Nat → JVal → JVal → Bool → GameSt Pos → JVal × GameSt Pos
  | 0, _, _, _, g => (.fin (calculatePosition (R.view g.cur)), g)
  | d + 1, alpha, beta, true, g =>
    jmaxLoopS R (fun _ a b g' => evaluateBoardSB R d a b false g') beta (R.moves g.cur) .negInf alpha g
  | d + 1, alpha, beta, false, g =>
    jminLoopS R (fun _ a b g' => evaluateBoardSB R d a b true g') alpha (R.moves g.cur) .posInf beta g

/-- Stateful root loop of the `chess-ai` `getBestMove`. -/
def jrootLoopS (R : Rules Pos Move) (d : Nat) :
    List Move → Option Move → JVal → GameSt Pos → Option Move × JVal × GameSt Pos
  | [], best, bv, g => (best, bv, g)
  | m :: rest, best, bv, g =>
    let r := evaluateBoardSB R d .negInf .posInf false (moveS R m g)
    let g2 := undoS r.2
    if jlt bv (jneg r.1) then jrootLoopS R d rest (some m) (jneg r.1) g2
    else jrootLoopS R d rest best bv g2

/-- Stateful `getBestMove` of the `chess-ai` variant. -/
def getBestMoveSB (R : Rules Pos Move) (difficulty : String) (rnd : Nat) (g : GameSt Pos) :
    Option Move × GameSt Pos :=
  let ms := R.moves g.cur
  if ms.length = 0 then (none, g)
  else if difficulty = "Beginner" then (ms.get? rnd, g)
  else
    let depth : Nat := if difficulty = "Easy" then 1 else if difficulty = "Hard" then 2 else 3
    let res := jrootLoopS R (depth - 1) ms none .negInf g
    match res.1 with
    | some m => (some m, res.2.2)
    | none => (ms.head?, res.2.2)

/-! ### Concrete rules instances for evaluation

Small hand-built collaborator instances (legal-move lists, transitions and
board views given by tables) on which the engine definitions can be
evaluated.  `demoRules` models a side-to-move-White root where move `0`
captures a black queen (material becomes +90) and move `1` is quiet
(material stays 0); `tieRules` gives two root moves of equal score. -/

/-- An empty board row. -/
def emptyRow : List (Option Piece) := List.replicate 8 none

/-- The empty 8x8 board (material 0). -/
def emptyBoard : Board := List.replicate 8 emptyRow

/-- A row holding a single white queen. -/
def wqRow : List (Option Piece) := some ⟨.q, .w⟩ :: List.replicate 7 none

/-- A row holding a single black queen. -/
def bqRow : List (Option Piece) := some ⟨.q, .b⟩ :: List.replicate 7 none

/-- Board with one white queen (material +90). -/
def queenBoard : Board := wqRow :: List.replicate 7 emptyRow

/-- Board with one white and one black queen (material 0). -/
def rootBoard : Board := wqRow :: bqRow :: List.replicate 6 emptyRow

/-- Demo collaborator: position 0 (White to move, both queens on the board)
has moves 0 (capture the black queen, leading to position 1) and 1 (quiet,
leading to position 2); positions 1 and 2 each have a single move to the
terminal position 3, which has no moves. -/
def demoRules : Rules (Fin 4) (Fin 2) where
  moves p := if p = 0 then [0, 1] else if p = 3 then [] else [0]
  apply p m := if p = 0 then (if m = 0 then 1 else 2) else 3
  view p :=
    if p = 0 then ⟨rootBoard, .w⟩
    else if p = 1 then ⟨queenBoard, .b⟩
    else if p = 2 then ⟨emptyBoard, .b⟩
    else ⟨emptyBoard, .w⟩

/-- Tie collaborator: two root moves whose resulting positions have the
same (empty) board, hence equal scores at every depth. -/
def tieRules : Rules (Fin 3) (Fin 2) where
  moves p := if p = 0 then [0, 1] else []
  apply p m := if p = 0 then (if m = 0 then 1 else 2) else p
  view _ := ⟨emptyBoard, .w⟩

/-- A row holding a single white pawn. -/
def wpRow : List (Option Piece) := some ⟨.p, .w⟩ :: List.replicate 7 none

/-- A row holding a single black pawn. -/
def bpRow : List (Option Piece) := some ⟨.p, .b⟩ :: List.replicate 7 none

/-- Board with one white pawn (material +10). -/
def wpBoard : Board := wpRow :: List.replicate 7 emptyRow

/-- Board with one black pawn (material -10). -/
def bpBoard : Board := bpRow :: List.replicate 7 emptyRow

/-- Two-ply demo collaborator (turns alternate): at the root (position 0,
White to move) move 0 leads to position 1 and move 1 to position 2 (Black
to move in both); Black's single reply from position 1 reaches material
+10 (position 3) and from position 2 material -10 (position 4).  The
root side thus prefers move 0 (value +10 after the reply) over move 1
(value -10). -/
def demo2 : Rules (Fin 6) (Fin 2) where
  moves p := if p = 0 then [0, 1] else if p = 1 then [0] else if p = 2 then [0] else []
  apply p m :=
    if p = 0 then (if m = 0 then 1 else 2)
    else if p = 1 then 3
    else if p = 2 then 4
    else p
  view p :=
    if p = 1 then ⟨emptyBoard, .b⟩
    else if p = 2 then ⟨emptyBoard, .b⟩
    else if p = 3 then ⟨wpBoard, .w⟩
    else if p = 4 then ⟨bpBoard, .w⟩
    else ⟨emptyBoard, .w⟩

/-- The value `getBestMove` of `src/lib/engine.ts` actually optimizes, read
against the spec's reference minimax: the plain minimax value of the
position after the root move, taken from Black's fixed perspective
(White moving next and maximizing the White-positive score underneath),
regardless of which side is to move at the root. -/
def blackRootScore (R : Rules Pos Move) (difficulty : String) (p : Pos) (m : Move) : Int :=
  sideSign Color.b *
    specMM R
      ((if difficulty = "Easy" then 1 else if difficulty = "Hard" then 2 else 3) - 1)
      (R.apply p m) Color.w

/-! ## Lemmas about the root loop -/

/-- The root loop either keeps its initial best move or returns a move of
the list. -/
lemma rootLoop_result_cases (score : Move → Int) :
    ∀ (ms : List Move) (best : Option Move) (bv : Int),
      (rootLoop score ms best bv).1 = best ∨
        ∃ m ∈ ms, (rootLoop score ms best bv).1 = some m := by
  intro ms
  induction ms with
  | nil => intro best bv; left; rfl
  | cons m rest ih =>
    intro best bv
    by_cases h : bv < score m
    · rcases ih (some m) (score m) with h1 | ⟨m', hm', h1⟩
      · right
        exact ⟨m, by simp, by simp [rootLoop, h, h1]⟩
      · right
        exact ⟨m', by simp [hm'], by simp [rootLoop, h, h1]⟩
    · rcases ih best bv with h1 | ⟨m', hm', h1⟩
      · left; simp [rootLoop, h, h1]
      · right; exact ⟨m', by simp [hm'], by simp [rootLoop, h, h1]⟩

/-- If no score beats the running best value, the root loop changes
nothing. -/
lemma rootLoop_all_le (score : Move → Int) :
    ∀ (ms : List Move) (best : Option Move) (bv : Int),
      (∀ m ∈ ms, score m ≤ bv) → rootLoop score ms best bv = (best, bv) := by
  intro ms
  induction ms with
  | nil => intro best bv _; rfl
  | cons m rest ih =>
    intro best bv h
    have hm : score m ≤ bv := h m (by simp)
    have h' : ∀ x ∈ rest, score x ≤ bv := fun x hx => h x (by simp [hx])
    simp [rootLoop, not_lt.2 hm, ih best bv h']

/-- If some score beats the running best value, the root loop returns the
first move attaining the maximal score: every move scores at most that
move's score and every move strictly before it scores strictly less. -/
lemma rootLoop_first (score : Move → Int) :
    ∀ (ms : List Move) (best : Option Move) (bv : Int),
      (∃ m ∈ ms, bv < score m) →
      ∃ l1 m0 l2, ms = l1 ++ m0 :: l2 ∧
        (rootLoop score ms best bv).1 = some m0 ∧
        bv < score m0 ∧
        (∀ x ∈ ms, score x ≤ score m0) ∧
        (∀ x ∈ l1, score x < score m0) := by
  intro ms
  induction ms with
  | nil => intro best bv h; simp at h
  | cons m rest ih =>
    intro best bv hex
    by_cases h : bv < score m
    · by_cases h2 : ∃ m' ∈ rest, score m < score m'
      · obtain ⟨l1, m0, l2, hdec, hres, hlt, hall, hpre⟩ := ih (some m) (score m) h2
        refine ⟨m :: l1, m0, l2, by simp [hdec], ?_, lt_trans h hlt, ?_, ?_⟩
        · simp [rootLoop, h, hres]
        · intro x hx
          rcases List.mem_cons.1 hx with rfl | hx
          · exact le_of_lt hlt
          · exact hall x hx
        · intro x hx
          rcases List.mem_cons.1 hx with rfl | hx
          · exact hlt
          · exact hpre x hx
      · push_neg at h2
        refine ⟨[], m, rest, rfl, ?_, h, ?_, by simp⟩
        · have := rootLoop_all_le score rest (some m) (score m) h2
          simp [rootLoop, h, this]
        · intro x hx
          rcases List.mem_cons.1 hx with rfl | hx
          · exact le_refl _
          · exact h2 x hx
    · obtain ⟨mw, hmw, hw⟩ := hex
      have hmw' : mw ∈ rest := by
        rcases List.mem_cons.1 hmw with rfl | hx
        · exact absurd hw h
        · exact hx
      obtain ⟨l1, m0, l2, hdec, hres, hlt, hall, hpre⟩ := ih best bv ⟨mw, hmw', hw⟩
      have hmlt : score m < score m0 := lt_of_le_of_lt (not_lt.1 h) hlt
      refine ⟨m :: l1, m0, l2, by simp [hdec], ?_, hlt, ?_, ?_⟩
      · simp [rootLoop, h, hres]
      · intro x hx
        rcases List.mem_cons.1 hx with rfl | hx
        · exact le_of_lt hmlt
        · exact hall x hx
      · intro x hx
        rcases List.mem_cons.1 hx with rfl | hx
        · exact hmlt
        · exact hpre x hx

/-- Root loops over pointwise-equal score functions agree. -/
lemma rootLoop_congr {score score' : Move → Int} :
    ∀ (ms : List Move) (best : Option Move) (bv : Int),
      (∀ m ∈ ms, score m = score' m) →
      rootLoop score ms best bv = rootLoop score' ms best bv := by
  intro ms
  induction ms with
  | nil => intro best bv _; rfl
  | cons m rest ih =>
    intro best bv h
    have hm := h m (by simp)
    have h' : ∀ x ∈ rest, score x = score' x := fun x hx => h x (by simp [hx])
    simp only [rootLoop, hm]
    split <;> exact ih _ _ h'

/-! ## Order facts for `chess-ai` values and its root loop -/

/-- `jle` is reflexive. -/
lemma jle_refl (a : JVal) : jle a a = true := by
  cases a <;> simp [jle]

/-- `jle` is transitive. -/
lemma jle_trans {a b c : JVal} (h1 : jle a b = true) (h2 : jle b c = true) :
    jle a c = true := by
  cases a <;> cases b <;> cases c <;> simp [jle] at * <;> omega

/-- `jle` is total. -/
lemma jle_total (a b : JVal) : jle a b = true ∨ jle b a = true := by
  cases a <;> cases b <;> simp [jle] <;> omega

/-- `jlt` is the negation of the reverse `jle`. -/
lemma jlt_iff {a b : JVal} : jlt a b = true ↔ ¬(jle b a = true) := by
  simp [jlt]

/-- Strict implies non-strict. -/
lemma jle_of_jlt {a b : JVal} (h : jlt a b = true) : jle a b = true := by
  cases a <;> cases b <;> simp [jlt, jle] at * <;> omega

/-- `jlt` is transitive. -/
lemma jlt_trans {a b c : JVal} (h1 : jlt a b = true) (h2 : jlt b c = true) :
    jlt a c = true := by
  cases a <;> cases b <;> cases c <;> simp [jlt, jle] at * <;> omega

/-- Non-strict then strict gives strict. -/
lemma jlt_of_jle_of_jlt {a b c : JVal} (h1 : jle a b = true) (h2 : jlt b c = true) :
    jlt a c = true := by
  cases a <;> cases b <;> cases c <;> simp [jlt, jle] at * <;> omega

/-- Every finite value strictly exceeds `-Infinity`. -/
lemma jlt_negInf_fin (z : Int) : jlt JVal.negInf (JVal.fin z) = true := by
  simp [jlt, jle]

/-- `jle` on finite values is integer `≤`. -/
lemma jle_fin {a b : Int} : jle (JVal.fin a) (JVal.fin b) = true ↔ a ≤ b := by
  simp [jle]

/-- `jlt` on finite values is integer `<`. -/
lemma jlt_fin {a b : Int} : jlt (JVal.fin a) (JVal.fin b) = true ↔ a < b := by
  simp [jlt, jle]

/-- The `chess-ai` root loop either keeps its initial best move or returns
a move of the list. -/
lemma jrootLoop_result_cases (score : Move → JVal) :
    ∀ (ms : List Move) (best : Option Move) (bv : JVal),
      (jrootLoop score ms best bv).1 = best ∨
        ∃ m ∈ ms, (jrootLoop score ms best bv).1 = some m := by
  intro ms
  induction ms with
  | nil => intro best bv; left; rfl
  | cons m rest ih =>
    intro best bv
    by_cases h : jlt bv (score m) = true
    · rcases ih (some m) (score m) with h1 | ⟨m', hm', h1⟩
      · right
        exact ⟨m, by simp, by simp [jrootLoop, h, h1]⟩
      · right
        exact ⟨m', by simp [hm'], by simp [jrootLoop, h, h1]⟩
    · rcases ih best bv with h1 | ⟨m', hm', h1⟩
      · left; simp [jrootLoop, h, h1]
      · right; exact ⟨m', by simp [hm'], by simp [jrootLoop, h, h1]⟩

/-- If no score strictly beats the running best value, the `chess-ai` root
loop changes nothing. -/
lemma jrootLoop_all_le (score : Move → JVal) :
    ∀ (ms : List Move) (best : Option Move) (bv : JVal),
      (∀ m ∈ ms, jle (score m) bv = true) → jrootLoop score ms best bv = (best, bv) := by
  intro ms
  induction ms with
  | nil => intro best bv _; rfl
  | cons m rest ih =>
    intro best bv h
    have hm : jle (score m) bv = true := h m (by simp)
    have hnot : ¬(jlt bv (score m) = true) := by
      rw [jlt_iff]
      simp [hm]
    have h' : ∀ x ∈ rest, jle (score x) bv = true := fun x hx => h x (by simp [hx])
    simp [jrootLoop, hnot, ih best bv h']

/-- If some score strictly beats the running best value, the `chess-ai`
root loop returns the first move attaining the maximal score. -/
lemma jrootLoop_first (score : Move → JVal) :
    ∀ (ms : List Move) (best : Option Move) (bv : JVal),
      (∃ m ∈ ms, jlt bv (score m) = true) →
      ∃ l1 m0 l2, ms = l1 ++ m0 :: l2 ∧
        (jrootLoop score ms best bv).1 = some m0 ∧
        jlt bv (score m0) = true ∧
        (∀ x ∈ ms, jle (score x) (score m0) = true) ∧
        (∀ x ∈ l1, jlt (score x) (score m0) = true) := by
  intro ms
  induction ms with
  | nil => intro best bv h; simp at h
  | cons m rest ih =>
    intro best bv hex
    by_cases h : jlt bv (score m) = true
    · by_cases h2 : ∃ m' ∈ rest, jlt (score m) (score m') = true
      · obtain ⟨l1, m0, l2, hdec, hres, hlt, hall, hpre⟩ := ih (some m) (score m) h2
        refine ⟨m :: l1, m0, l2, by simp [hdec], ?_, jlt_trans h hlt, ?_, ?_⟩
        · simp [jrootLoop, h, hres]
        · intro x hx
          rcases List.mem_cons.1 hx with rfl | hx
          · exact jle_of_jlt hlt
          · exact hall x hx
        · intro x hx
          rcases List.mem_cons.1 hx with rfl | hx
          · exact hlt
          · exact hpre x hx
      · push_neg at h2
        have hle : ∀ x ∈ rest, jle (score x) (score m) = true := by
          intro x hx
          have hnx := h2 x hx
          by_contra hc
          exact hnx (jlt_iff.2 hc)
        refine ⟨[], m, rest, rfl, ?_, h, ?_, by simp⟩
        · have := jrootLoop_all_le score rest (some m) (score m) hle
          simp [jrootLoop, h, this]
        · intro x hx
          rcases List.mem_cons.1 hx with rfl | hx
          · exact jle_refl _
          · exact hle x hx
    · obtain ⟨mw, hmw, hw⟩ := hex
      have hmw' : mw ∈ rest := by
        rcases List.mem_cons.1 hmw with rfl | hx
        · exact absurd hw h
        · exact hx
      obtain ⟨l1, m0, l2, hdec, hres, hlt, hall, hpre⟩ := ih best bv ⟨mw, hmw', hw⟩
      have hbv : jle (score m) bv = true := by
        by_contra hc
        exact h (jlt_iff.2 hc)
      have hmlt : jlt (score m) (score m0) = true := jlt_of_jle_of_jlt hbv hlt
      refine ⟨m :: l1, m0, l2, by simp [hdec], ?_, hlt, ?_, ?_⟩
      · simp [jrootLoop, h, hres]
      · intro x hx
        rcases List.mem_cons.1 hx with rfl | hx
        · exact jle_of_jlt hmlt
        · exact hall x hx
      · intro x hx
        rcases List.mem_cons.1 hx with rfl | hx
        · exact hmlt
        · exact hpre x hx

/-- `chess-ai` root loops over pointwise-equal score functions agree. -/
lemma jrootLoop_congr {score score' : Move → JVal} :
    ∀ (ms : List Move) (best : Option Move) (bv : JVal),
      (∀ m ∈ ms, score m = score' m) →
      jrootLoop score ms best bv = jrootLoop score' ms best bv := by
  intro ms
  induction ms with
  | nil => intro best bv _; rfl
  | cons m rest ih =>
    intro best bv h
    have hm := h m (by simp)
    have h' : ∀ x ∈ rest, score x = score' x := fun x hx => h x (by simp [hx])
    simp only [jrootLoop, hm]
    split <;> exact ih _ _ h'

/-- The `chess-ai` evaluator is the turn sign times the `engine.ts`
evaluator, on every board: the two material loops agree square by
square. -/
lemma calculatePosition_eq (g : GView) :
    calculatePosition g = sideSign g.turn * evaluateBoard g := by
  have hfold :
      (List.range 8).foldl
          (fun acc i =>
            (List.range 8).foldl (fun acc2 j => acc2 + calcPieceScore (bAt g.board i j)) acc)
          0
        = evaluateBoard g := by
    refine List.foldl_ext _ _ 0 ?_
    intro acc i _
    refine List.foldl_ext _ _ acc ?_
    intro acc2 j _
    have : calcPieceScore (bAt g.board i j) = getPieceValue (bAt g.board i j) := by
      rcases bAt g.board i j with _ | ⟨tp, c⟩
      · rfl
      · cases tp <;> cases c <;> rfl
    rw [this]
  simp only [calculatePosition, hfold]
  cases hg : g.turn <;> simp [sideSign, hg]

/-! ## Claim theorems: leaves, terminals, boundaries -/

/-- C2 (counterexample): at depth 0 the `engine.ts` search does not return
the Evaluator's score: on the board holding one white queen the Evaluator
scores +90 while the depth-0 search node returns -90. -/
theorem C2_cex :
    minimax demoRules 0 1 (-10000) 10000 true ≠ evaluateBoard (demoRules.view 1) := by
  decide

/-- C2 (amended): a depth-0 node of the `engine.ts` search returns the
NEGATION of the Evaluator's White-positive score, and a depth-0 node of
the `chess-ai` search returns `calculatePosition`, the turn-relative
score, in both cases independently of the window and the max/min flag. -/
theorem C2_leaf_value {Pos Move : Type} (R : Rules Pos Move) (p : Pos)
    (alpha beta : Int) (a b : JVal) (mx : Bool) :
    minimax R 0 p alpha beta mx = -(evaluateBoard (R.view p)) ∧
      evaluateBoardB R 0 p a b mx = JVal.fin (calculatePosition (R.view p)) := by
  exact ⟨by cases mx <;> simp [minimax], by cases mx <;> simp [evaluateBoardB]⟩

/-- C3 (counterexample): the `chess-ai` evaluator `calculatePosition` is
not side-to-move independent: with the same piece placement (one white
queen) it scores +90 with White to move and -90 with Black to move. -/
theorem C3_cex :
    calculatePosition ⟨queenBoard, Color.w⟩ ≠ calculatePosition ⟨queenBoard, Color.b⟩ := by
  decide

/-- C5: with an empty legal-move list both variants return "no move" for
every difficulty (including Beginner) and every random draw. -/
theorem C5_empty_moves {Pos Move : Type} (R : Rules Pos Move) (p : Pos)
    (difficulty : String) (rnd : Nat) (h : R.moves p = []) :
    getBestMove R p difficulty rnd = none ∧ getBestMoveB R p difficulty rnd = none := by
  constructor <;> simp [getBestMove, getBestMoveB, h]

/-- C5 (witness): the terminal demo position. -/
theorem C5_witness :
    getBestMove demoRules 3 "Beginner" 5 = none ∧ getBestMoveB demoRules 3 "Beginner" 5 = none :=
  C5_empty_moves demoRules 3 "Beginner" 5 (by decide)

/-- C8 (counterexample): an unrecognized difficulty string is not rejected
by either variant: both silently search at depth 3 and return the same
move as Master, not "no move". -/
theorem C8_cex :
    (getBestMove demoRules 0 "Expert" 0 = getBestMove demoRules 0 "Master" 0 ∧
      getBestMove demoRules 0 "Expert" 0 ≠ none) ∧
      (getBestMoveB demoRules 0 "Expert" 0 = getBestMoveB demoRules 0 "Master" 0 ∧
        getBestMoveB demoRules 0 "Expert" 0 ≠ none) := by
  decide

/-- C8 (amended): in both variants, any difficulty other than
Beginner/Easy/Hard — including any unrecognized string — is silently
mapped to depth 3, so it behaves exactly like Master. -/
theorem C8_unknown_is_master {Pos Move : Type} (R : Rules Pos Move) (p : Pos)
    (s : String) (rnd : Nat)
    (h1 : s ≠ "Beginner") (h2 : s ≠ "Easy") (h3 : s ≠ "Hard") :
    getBestMove R p s rnd = getBestMove R p "Master" rnd ∧
      getBestMoveB R p s rnd = getBestMoveB R p "Master" rnd := by
  constructor
  · have hsc : ∀ m : Move, rootScore R s p m = rootScore R "Master" p m := by
      intro m
      simp [rootScore, h2, h3]
    simp only [getBestMove, h1, if_false]
    simp [hsc]
  · have hsc : ∀ m : Move, rootScoreB R s p m = rootScoreB R "Master" p m := by
      intro m
      simp [rootScoreB, h2, h3]
    simp only [getBestMoveB, h1, if_false]
    simp [hsc]

/-- C8 (witness): "Expert" is handled like Master on the demo instance, in
both variants. -/
theorem C8_witness :
    ("Expert" : String) ≠ "Beginner" ∧
      getBestMove demoRules 0 "Expert" 0 = getBestMove demoRules 0 "Master" 0 ∧
      getBestMoveB demoRules 0 "Expert" 0 = getBestMoveB demoRules 0 "Master" 0 :=
  ⟨by decide,
    (C8_unknown_is_master demoRules 0 "Expert" 0 (by decide) (by decide) (by decide)).1,
    (C8_unknown_is_master demoRules 0 "Expert" 0 (by decide) (by decide) (by decide)).2⟩

/-- C10: an interior search node (depth > 0) whose side to move has no
legal moves returns the extreme sentinel — -9999/9999 in `engine.ts`,
`-Infinity`/`Infinity` in the `chess-ai` variant — when maximizing resp.
minimizing, for every window and in particular independently of the
Evaluator, so checkmate and stalemate inside the search score alike. -/
theorem C10_no_moves_sentinel {Pos Move : Type} (R : Rules Pos Move) (p : Pos)
    (alpha beta : Int) (a b : JVal) (d : Nat) (h : R.moves p = []) :
    (minimax R (d + 1) p alpha beta true = -9999 ∧
      minimax R (d + 1) p alpha beta false = 9999) ∧
      (evaluateBoardB R (d + 1) p a b true = JVal.negInf ∧
        evaluateBoardB R (d + 1) p a b false = JVal.posInf) := by
  refine ⟨⟨?_, ?_⟩, ?_, ?_⟩ <;>
    simp [minimax, evaluateBoardB, h, maxLoop, minLoop, jmaxLoop, jminLoop]

/-- C10 (witness): the moveless demo position 3 at depth 1, both
variants. -/
theorem C10_witness :
    (minimax demoRules (0 + 1) 3 (-10000) 10000 true = -9999 ∧
      minimax demoRules (0 + 1) 3 (-10000) 10000 false = 9999) ∧
      (evaluateBoardB demoRules (0 + 1) 3 .negInf .posInf true = JVal.negInf ∧
        evaluateBoardB demoRules (0 + 1) 3 .negInf .posInf false = JVal.posInf) :=
  C10_no_moves_sentinel demoRules 3 (-10000) 10000 .negInf .posInf 0 (by decide)

/-- C9: with a non-empty move list, `getBestMove` of both variants always
returns a member of the move list (for Beginner, given the random draw is
in range, as `Math.random() < 1` guarantees); and for a searching
difficulty, when no root score strictly exceeds the initial sentinel best
value (-9999 in `engine.ts`, `-Infinity` in the `chess-ai` variant), the
first legal move is returned as the fallback. -/
theorem C9_legal_move {Pos Move : Type} (R : Rules Pos Move) (p : Pos)
    (difficulty : String) (rnd : Nat) (hne : R.moves p ≠ [])
    (hrnd : difficulty = "Beginner" → rnd < (R.moves p).length) :
    ((∃ m, getBestMove R p difficulty rnd = some m ∧ m ∈ R.moves p) ∧
      (difficulty ≠ "Beginner" →
        (∀ m ∈ R.moves p, rootScore R difficulty p m ≤ -9999) →
        getBestMove R p difficulty rnd = (R.moves p).head?)) ∧
      ((∃ m, getBestMoveB R p difficulty rnd = some m ∧ m ∈ R.moves p) ∧
        (difficulty ≠ "Beginner" →
          (∀ m ∈ R.moves p, jle (rootScoreB R difficulty p m) JVal.negInf = true) →
          getBestMoveB R p difficulty rnd = (R.moves p).head?)) := by
  have hlen : ¬((R.moves p).length = 0) := by
    simpa [List.length_eq_zero] using hne
  by_cases hb : difficulty = "Beginner"
  · have hr := hrnd hb
    have hget : (R.moves p).get? rnd = some ((R.moves p).get ⟨rnd, hr⟩) :=
      List.get?_eq_get hr
    refine ⟨⟨?_, fun hcon => absurd hb hcon⟩, ?_, fun hcon => absurd hb hcon⟩
    · refine ⟨(R.moves p).get ⟨rnd, hr⟩, ?_, List.get_mem _ _ _⟩
      simp [getBestMove, hlen, hb, hget]
    · refine ⟨(R.moves p).get ⟨rnd, hr⟩, ?_, List.get_mem _ _ _⟩
      simp [getBestMoveB, hlen, hb, hget]
  · refine ⟨⟨?_, ?_⟩, ?_, ?_⟩
    · rcases rootLoop_result_cases (fun m => rootScore R difficulty p m)
        (R.moves p) none (-9999) with hc | ⟨m, hm, hc⟩
      · rcases List.exists_cons_of_ne_nil hne with ⟨m0, t, hmt⟩
        refine ⟨m0, ?_, by simp [hmt]⟩
        rw [hmt] at hc
        simp [getBestMove, hlen, hb, hc, hmt]
      · refine ⟨m, ?_, hm⟩
        simp [getBestMove, hlen, hb, hc]
    · intro _ hall
      have := rootLoop_all_le (fun m => rootScore R difficulty p m)
        (R.moves p) none (-9999) hall
      rcases List.exists_cons_of_ne_nil hne with ⟨m0, t, hmt⟩
      rw [hmt] at this
      simp [getBestMove, hlen, hb, this, hmt]
    · rcases jrootLoop_result_cases (fun m => rootScoreB R difficulty p m)
        (R.moves p) none .negInf with hc | ⟨m, hm, hc⟩
      · rcases List.exists_cons_of_ne_nil hne with ⟨m0, t, hmt⟩
        refine ⟨m0, ?_, by simp [hmt]⟩
        rw [hmt] at hc
        simp [getBestMoveB, hlen, hb, hc, hmt]
      · refine ⟨m, ?_, hm⟩
        simp [getBestMoveB, hlen, hb, hc]
    · intro _ hall
      have := jrootLoop_all_le (fun m => rootScoreB R difficulty p m)
        (R.moves p) none .negInf hall
      rcases List.exists_cons_of_ne_nil hne with ⟨m0, t, hmt⟩
      rw [hmt] at this
      simp [getBestMoveB, hlen, hb, this, hmt]

/-- C9 (witness): the demo root position at Easy, both variants. -/
theorem C9_witness :
    ((∃ m, getBestMove demoRules 0 "Easy" 0 = some m ∧ m ∈ demoRules.moves 0) ∧
      (("Easy" : String) ≠ "Beginner" →
        (∀ m ∈ demoRules.moves 0, rootScore demoRules "Easy" 0 m ≤ -9999) →
        getBestMove demoRules 0 "Easy" 0 = (demoRules.moves 0).head?)) ∧
      ((∃ m, getBestMoveB demoRules 0 "Easy" 0 = some m ∧ m ∈ demoRules.moves 0) ∧
        (("Easy" : String) ≠ "Beginner" →
          (∀ m ∈ demoRules.moves 0, jle (rootScoreB demoRules "Easy" 0 m) JVal.negInf = true) →
          getBestMoveB demoRules 0 "Easy" 0 = (demoRules.moves 0).head?)) :=
  C9_legal_move demoRules 0 "Easy" 0 (by decide) (by decide)

/-- C6: for a searching difficulty, in both variants, as soon as some root
move beats the initial sentinel best value, `getBestMove` returns the
FIRST move attaining the maximal root score in the collaborator's move
order: all moves score at most the returned move's score and all moves
strictly before it score strictly less (so ties go to the earlier
move). -/
theorem C6_first_max {Pos Move : Type} (R : Rules Pos Move) (p : Pos)
    (difficulty : String) (rnd : Nat)
    (hd : difficulty = "Easy" ∨ difficulty = "Hard" ∨ difficulty = "Master") :
    ((∃ m ∈ R.moves p, -9999 < rootScore R difficulty p m) →
      ∃ l1 m0 l2, R.moves p = l1 ++ m0 :: l2 ∧
        getBestMove R p difficulty rnd = some m0 ∧
        (∀ x ∈ R.moves p, rootScore R difficulty p x ≤ rootScore R difficulty p m0) ∧
        (∀ x ∈ l1, rootScore R difficulty p x < rootScore R difficulty p m0)) ∧
      ((∃ m ∈ R.moves p, jlt JVal.negInf (rootScoreB R difficulty p m) = true) →
        ∃ l1 m0 l2, R.moves p = l1 ++ m0 :: l2 ∧
          getBestMoveB R p difficulty rnd = some m0 ∧
          (∀ x ∈ R.moves p,
            jle (rootScoreB R difficulty p x) (rootScoreB R difficulty p m0) = true) ∧
          (∀ x ∈ l1,
            jlt (rootScoreB R difficulty p x) (rootScoreB R difficulty p m0) = true)) := by
  have hb : difficulty ≠ "Beginner" := by
    rcases hd with rfl | rfl | rfl <;> decide
  constructor
  · intro hex
    have hne : R.moves p ≠ [] := by
      rcases hex with ⟨m, hm, _⟩
      exact List.ne_nil_of_mem hm
    have hlen : ¬((R.moves p).length = 0) := by
      simpa [List.length_eq_zero] using hne
    obtain ⟨l1, m0, l2, hdec, hres, _, hall, hpre⟩ :=
      rootLoop_first (fun m => rootScore R difficulty p m) (R.moves p) none (-9999) hex
    refine ⟨l1, m0, l2, hdec, ?_, hall, hpre⟩
    simp [getBestMove, hlen, hb, hres]
  · intro hex
    have hne : R.moves p ≠ [] := by
      rcases hex with ⟨m, hm, _⟩
      exact List.ne_nil_of_mem hm
    have hlen : ¬((R.moves p).length = 0) := by
      simpa [List.length_eq_zero] using hne
    obtain ⟨l1, m0, l2, hdec, hres, _, hall, hpre⟩ :=
      jrootLoop_first (fun m => rootScoreB R difficulty p m) (R.moves p) none .negInf hex
    refine ⟨l1, m0, l2, hdec, ?_, hall, hpre⟩
    simp [getBestMoveB, hlen, hb, hres]

/-- C6 (witness): the tie instance — both root moves score 0 at Easy in
either variant and the first one is returned. -/
theorem C6_witness :
    (∃ l1 m0 l2, tieRules.moves 0 = l1 ++ m0 :: l2 ∧
      getBestMove tieRules 0 "Easy" 0 = some m0 ∧
      (∀ x ∈ tieRules.moves 0, rootScore tieRules "Easy" 0 x ≤ rootScore tieRules "Easy" 0 m0) ∧
      (∀ x ∈ l1, rootScore tieRules "Easy" 0 x < rootScore tieRules "Easy" 0 m0)) ∧
      (∃ l1 m0 l2, tieRules.moves 0 = l1 ++ m0 :: l2 ∧
        getBestMoveB tieRules 0 "Easy" 0 = some m0 ∧
        (∀ x ∈ tieRules.moves 0,
          jle (rootScoreB tieRules "Easy" 0 x) (rootScoreB tieRules "Easy" 0 m0) = true) ∧
        (∀ x ∈ l1,
          jlt (rootScoreB tieRules "Easy" 0 x) (rootScoreB tieRules "Easy" 0 m0) = true)) :=
  ⟨(C6_first_max tieRules 0 "Easy" 0 (Or.inl rfl)).1 ⟨0, by decide, by decide⟩,
    (C6_first_max tieRules 0 "Easy" 0 (Or.inl rfl)).2 ⟨0, by decide, by decide⟩⟩

/-- C1 (counterexample): neither variant maximizes the root-side
minimax value at every position and difficulty.  In `engine.ts`, at the
demo root (White to move, Easy) capturing the black queen (move 0) has
the strictly higher root-side value (90 vs 0) yet the quiet move 1 is
returned.  In the `chess-ai` variant, at the two-ply demo root (White to
move, Hard) move 0 has root-side value +10 and move 1 has -10, yet move 1
is returned. -/
theorem C1_cex :
    (getBestMove demoRules 0 "Easy" 0 = some 1 ∧
      (demoRules.view 0).turn = Color.w ∧
      specRootScore demoRules 1 0 1 < specRootScore demoRules 1 0 0) ∧
      (getBestMoveB demo2 0 "Hard" 0 = some 1 ∧
        (demo2.view 0).turn = Color.w ∧
        specRootScore demo2 2 0 1 < specRootScore demo2 2 0 0) := by
  decide

/-! ## The search restores the game state (claim C4) -/

/-- `undo` exactly reverses `move`. -/
lemma undoS_moveS (R : Rules Pos Move) (m : Move) (g : GameSt Pos) :
    undoS (moveS R m g) = g := rfl

/-- If the recursive call preserves the state, the maximizing loop does. -/
lemma maxLoopS_state (R : Rules Pos Move)
    (child : Move → Int → Int → GameSt Pos → Int × GameSt Pos) (beta : Int)
    (hc : ∀ m a b g, (child m a b g).2 = g) :
    ∀ (ms : List Move) (best alpha : Int) (g : GameSt Pos),
      (maxLoopS R child beta ms best alpha g).2 = g := by
  intro ms
  induction ms with
  | nil => intro best alpha g; rfl
  | cons m rest ih =>
    intro best alpha g
    by_cases hcut : beta ≤ max alpha (max best (child m alpha beta (moveS R m g)).1)
    · simp [maxLoopS, hcut, hc, undoS_moveS]
    · simp [maxLoopS, hcut, hc, undoS_moveS, ih]

/-- If the recursive call preserves the state, the minimizing loop does. -/
lemma minLoopS_state (R : Rules Pos Move)
    (child : Move → Int → Int → GameSt Pos → Int × GameSt Pos) (alpha : Int)
    (hc : ∀ m a b g, (child m a b g).2 = g) :
    ∀ (ms : List Move) (best beta : Int) (g : GameSt Pos),
      (minLoopS R child alpha ms best beta g).2 = g := by
  intro ms
  induction ms with
  | nil => intro best beta g; rfl
  | cons m rest ih =>
    intro best beta g
    by_cases hcut : min beta (min best (child m alpha beta (moveS R m g)).1) ≤ alpha
    · simp [minLoopS, hcut, hc, undoS_moveS]
    · simp [minLoopS, hcut, hc, undoS_moveS, ih]

/-- The stateful `engine.ts` search returns the game exactly as received:
every `move` is matched by an `undo`, including iterations cut short by
the `beta <= alpha` prune. -/
lemma minimaxS_state (R : Rules Pos Move) :
    ∀ (d : Nat) (alpha beta : Int) (mx : Bool) (g : GameSt Pos),
      (minimaxS R d alpha beta mx g).2 = g := by
  intro d
  induction d with
  | zero => intro alpha beta mx g; cases mx <;> rfl
  | succ d ih =>
    intro alpha beta mx g
    cases mx
    · exact minLoopS_state R _ alpha (fun m a b g' => ih a b true g') (R.moves g.cur) 9999 beta g
    · exact maxLoopS_state R _ beta (fun m a b g' => ih a b false g') (R.moves g.cur) (-9999) alpha g

/-- The stateful `engine.ts` root loop preserves the game state. -/
lemma rootLoopS_state (R : Rules Pos Move) (d : Nat) :
    ∀ (ms : List Move) (best : Option Move) (bv : Int) (g : GameSt Pos),
      (rootLoopS R d ms best bv g).2.2 = g := by
  intro ms
  induction ms with
  | nil => intro best bv g; rfl
  | cons m rest ih =>
    intro best bv g
    by_cases h : bv < (minimaxS R d (-10000) 10000 false (moveS R m g)).1
    · simp [rootLoopS, h, minimaxS_state, undoS_moveS, ih]
    · simp [rootLoopS, h, minimaxS_state, undoS_moveS, ih]

/-- If the recursive call preserves the state, the `chess-ai` maximizing
loop does. -/
lemma jmaxLoopS_state (R : Rules Pos Move)
    (child : Move → JVal → JVal → GameSt Pos → JVal × GameSt Pos) (beta : JVal)
    (hc : ∀ m a b g, (child m a b g).2 = g) :
    ∀ (ms : List Move) (best alpha : JVal) (g : GameSt Pos),
      (jmaxLoopS R child beta ms best alpha g).2 = g := by
  intro ms
  induction ms with
  | nil => intro best alpha g; rfl
  | cons m rest ih =>
    intro best alpha g
    by_cases hcut : jle beta (jmax alpha (jmax best (child m alpha beta (moveS R m g)).1)) = true
    · simp [jmaxLoopS, hcut, hc, undoS_moveS]
    · simp [jmaxLoopS, hcut, hc, undoS_moveS, ih]

/-- If the recursive call preserves the state, the `chess-ai` minimizing
loop does. -/
lemma jminLoopS_state (R : Rules Pos Move)
    (child : Move → JVal → JVal → GameSt Pos → JVal × GameSt Pos) (alpha : JVal)
    (hc : ∀ m a b g, (child m a b g).2 = g) :
    ∀ (ms : List Move) (best beta : JVal) (g : GameSt Pos),
      (jminLoopS R child alpha ms best beta g).2 = g := by
  intro ms
  induction ms with
  | nil => intro best beta g; rfl
  | cons m rest ih =>
    intro best beta g
    by_cases hcut : jle (jmin beta (jmin best (child m alpha beta (moveS R m g)).1)) alpha = true
    · simp [jminLoopS, hcut, hc, undoS_moveS]
    · simp [jminLoopS, hcut, hc, undoS_moveS, ih]

/-- The stateful `chess-ai` search preserves the game state. -/
lemma evaluateBoardSB_state (R : Rules Pos Move) :
    ∀ (d : Nat) (alpha beta : JVal) (mx : Bool) (g : GameSt Pos),
      (evaluateBoardSB R d alpha beta mx g).2 = g := by
  intro d
  induction d with
  | zero => intro alpha beta mx g; cases mx <;> rfl
  | succ d ih =>
    intro alpha beta mx g
    cases mx
    · exact jminLoopS_state R _ alpha (fun m a b g' => ih a b true g') (R.moves g.cur) .posInf beta g
    · exact jmaxLoopS_state R _ beta (fun m a b g' => ih a b false g') (R.moves g.cur) .negInf alpha g

/-- The stateful `chess-ai` root loop preserves the game state. -/
lemma jrootLoopS_state (R : Rules Pos Move) (d : Nat) :
    ∀ (ms : List Move) (best : Option Move) (bv : JVal) (g : GameSt Pos),
      (jrootLoopS R d ms best bv g).2.2 = g := by
  intro ms
  induction ms with
  | nil => intro best bv g; rfl
  | cons m rest ih =>
    intro best bv g
    by_cases h : jlt bv (jneg (evaluateBoardSB R d .negInf .posInf false (moveS R m g)).1) = true
    · simp [jrootLoopS, h, evaluateBoardSB_state, undoS_moveS, ih]
    · simp [jrootLoopS, h, evaluateBoardSB_state, undoS_moveS, ih]

/-- C4: for every game state, difficulty and random draw, `getBestMove` of
both variants returns the game exactly as it received it — every `move`
applied during search (root loop and every recursive ply, pruned
iterations included) is matched by an `undo`. -/
theorem C4_search_restores_state {Pos Move : Type} (R : Rules Pos Move)
    (difficulty : String) (rnd : Nat) (g : GameSt Pos) :
    (getBestMoveS R difficulty rnd g).2 = g ∧ (getBestMoveSB R difficulty rnd g).2 = g := by
  constructor
  · by_cases h0 : (R.moves g.cur).length = 0
    · simp [getBestMoveS, h0]
    · by_cases hb : difficulty = "Beginner"
      · simp [getBestMoveS, h0, hb]
      · rcases hres : (rootLoopS R
            ((if difficulty = "Easy" then 1 else if difficulty = "Hard" then 2 else 3) - 1)
            (R.moves g.cur) none (-9999) g).1 with _ | m <;>
          simp [getBestMoveS, h0, hb, hres, rootLoopS_state]
  · by_cases h0 : (R.moves g.cur).length = 0
    · simp [getBestMoveSB, h0]
    · by_cases hb : difficulty = "Beginner"
      · simp [getBestMoveSB, h0, hb]
      · rcases hres : (jrootLoopS R
            ((if difficulty = "Easy" then 1 else if difficulty = "Hard" then 2 else 3) - 1)
            (R.moves g.cur) none .negInf g).1 with _ | m <;>
          simp [getBestMoveSB, h0, hb, hres, jrootLoopS_state]

/-! ## Alpha-beta equals plain minimax (claim C7)

The classic fail-soft invariant: relative to a window `alpha < beta`, the
pruned value `r` of a node with true (unpruned) value `v` satisfies: if
`v` fails low, `r` fails low and stays an upper bound of `v`... stated
precisely by `abOk`, proved by induction with a loop invariant, and
collapsed to equality once all values lie strictly inside the window. -/

/-- Fail-soft alpha-beta approximation: how the pruned result `r` relates
to the true value `v` relative to the window `(alpha, beta)`. -/
def abOk (v r alpha beta : Int) : Prop :=
  (v ≤ alpha → v ≤ r ∧ r ≤ alpha) ∧
    (beta ≤ v → beta ≤ r ∧ r ≤ v) ∧
    (alpha < v → v < beta → r = v)

/-- Folding from a `max` of two seeds extracts the first seed. -/
lemma maxLoopNP_init (child : Move → Int) :
    ∀ (ms : List Move) (b1 b2 : Int),
      maxLoopNP child ms (max b1 b2) = max b1 (maxLoopNP child ms b2) := by
  intro ms
  induction ms with
  | nil => intro b1 b2; rfl
  | cons m rest ih =>
    intro b1 b2
    simp only [maxLoopNP]
    rw [max_assoc, ih]

/-- The unpruned max loop only increases its seed. -/
lemma maxLoopNP_ge_init (child : Move → Int) :
    ∀ (ms : List Move) (b : Int), b ≤ maxLoopNP child ms b := by
  intro ms
  induction ms with
  | nil => intro b; exact le_refl b
  | cons m rest ih =>
    intro b
    simp only [maxLoopNP]
    exact le_trans (le_max_left _ _) (ih _)

/-- Folding from a `min` of two seeds extracts the first seed. -/
lemma minLoopNP_init (child : Move → Int) :
    ∀ (ms : List Move) (b1 b2 : Int),
      minLoopNP child ms (min b1 b2) = min b1 (minLoopNP child ms b2) := by
  intro ms
  induction ms with
  | nil => intro b1 b2; rfl
  | cons m rest ih =>
    intro b1 b2
    simp only [minLoopNP]
    rw [min_assoc, ih]

/-- The unpruned min loop only decreases its seed. -/
lemma minLoopNP_le_init (child : Move → Int) :
    ∀ (ms : List Move) (b : Int), minLoopNP child ms b ≤ b := by
  intro ms
  induction ms with
  | nil => intro b; exact le_refl b
  | cons m rest ih =>
    intro b
    simp only [minLoopNP]
    exact le_trans (ih _) (min_le_left _ _)

/-- Loop invariant for the maximizing branch: if every child's pruned
value approximates its true value for every window, the whole loop's
pruned value approximates the unpruned loop value. -/
lemma maxLoop_abOk (cAB : Move → Int → Int → Int) (cNP : Move → Int)
    (hc : ∀ m a b, a < b → abOk (cNP m) (cAB m a b) a b) :
    ∀ (ms : List Move) (best alpha beta : Int), alpha < beta →
      abOk (maxLoopNP cNP ms best) (maxLoop cAB beta ms best alpha) alpha beta := by
  intro ms
  induction ms with
  | nil =>
    intro best alpha beta hab
    exact ⟨fun h => ⟨le_refl _, h⟩, fun h => ⟨h, le_refl _⟩, fun _ _ => rfl⟩
  | cons m rest ih =>
    intro best alpha beta hab
    obtain ⟨H1, H2, H3⟩ := hc m alpha beta hab
    have habs : ∀ x : Int, maxLoopNP cNP rest (max best x) = max x (maxLoopNP cNP rest best) := by
      intro x
      rw [max_comm best x, maxLoopNP_init]
    have hbestK : best ≤ maxLoopNP cNP rest best := maxLoopNP_ge_init cNP rest best
    set vm := cNP m with hvmdef
    set v1 := cAB m alpha beta with hv1def
    set K := maxLoopNP cNP rest best with hKdef
    have hNP : maxLoopNP cNP (m :: rest) best = max vm K := by
      simp only [maxLoopNP]
      exact habs vm
    rw [hNP]
    by_cases hcut : beta ≤ max alpha (max best v1)
    · have hAB : maxLoop cAB beta (m :: rest) best alpha = max best v1 := by
        simp only [maxLoop]
        rw [if_pos hcut]
      rw [hAB]
      rcases lt_or_le alpha vm with hvm1 | hvm1
      · rcases lt_or_le vm beta with hvm2 | hvm2
        · have h3 := H3 hvm1 hvm2
          exact ⟨fun h => by omega, fun h => ⟨by omega, by omega⟩, fun h h' => by omega⟩
        · obtain ⟨h2a, h2b⟩ := H2 hvm2
          exact ⟨fun h => by omega, fun h => ⟨by omega, by omega⟩, fun h h' => by omega⟩
      · obtain ⟨h1a, h1b⟩ := H1 hvm1
        exact ⟨fun h => by omega, fun h => ⟨by omega, by omega⟩, fun h h' => by omega⟩
    · have hAB : maxLoop cAB beta (m :: rest) best alpha =
          maxLoop cAB beta rest (max best v1) (max alpha (max best v1)) := by
        simp only [maxLoop]
        rw [if_neg hcut]
      rw [hAB]
      have hwin : max alpha (max best v1) < beta := by omega
      obtain ⟨I1, I2, I3⟩ := ih (max best v1) (max alpha (max best v1)) beta hwin
      rw [habs v1] at I1 I2 I3
      set r := maxLoop cAB beta rest (max best v1) (max alpha (max best v1)) with hrdef
      rcases lt_or_le alpha vm with hvm1 | hvm1
      · rcases lt_or_le vm beta with hvm2 | hvm2
        · have h3 := H3 hvm1 hvm2
          refine ⟨fun h => by omega, fun h => ?_, fun h h' => ?_⟩
          · obtain ⟨i2a, i2b⟩ := I2 (by omega)
            exact ⟨by omega, by omega⟩
          · by_cases hV : max alpha (max best v1) < max v1 K
            · have i3 := I3 hV (by omega)
              omega
            · obtain ⟨i1a, i1b⟩ := I1 (by omega)
              omega
        · obtain ⟨h2a, h2b⟩ := H2 hvm2
          exact absurd (by omega : beta ≤ max alpha (max best v1)) hcut
      · obtain ⟨h1a, h1b⟩ := H1 hvm1
        refine ⟨fun h => ?_, fun h => ?_, fun h h' => ?_⟩
        · obtain ⟨i1a, i1b⟩ := I1 (by omega)
          exact ⟨by omega, by omega⟩
        · obtain ⟨i2a, i2b⟩ := I2 (by omega)
          exact ⟨by omega, by omega⟩
        · by_cases hV : max alpha (max best v1) < max v1 K
          · have i3 := I3 hV (by omega)
            omega
          · obtain ⟨i1a, i1b⟩ := I1 (by omega)
            omega

/-- Loop invariant for the minimizing branch, dual to `maxLoop_abOk`. -/
lemma minLoop_abOk (cAB : Move → Int → Int → Int) (cNP : Move → Int)
    (hc : ∀ m a b, a < b → abOk (cNP m) (cAB m a b) a b) :
    ∀ (ms : List Move) (best alpha beta : Int), alpha < beta →
      abOk (minLoopNP cNP ms best) (minLoop cAB alpha ms best beta) alpha beta := by
  intro ms
  induction ms with
  | nil =>
    intro best alpha beta hab
    exact ⟨fun h => ⟨le_refl _, h⟩, fun h => ⟨h, le_refl _⟩, fun _ _ => rfl⟩
  | cons m rest ih =>
    intro best alpha beta hab
    obtain ⟨H1, H2, H3⟩ := hc m alpha beta hab
    have habs : ∀ x : Int, minLoopNP cNP rest (min best x) = min x (minLoopNP cNP rest best) := by
      intro x
      rw [min_comm best x, minLoopNP_init]
    have hbestK : minLoopNP cNP rest best ≤ best := minLoopNP_le_init cNP rest best
    set vm := cNP m with hvmdef
    set v1 := cAB m alpha beta with hv1def
    set K := minLoopNP cNP rest best with hKdef
    have hNP : minLoopNP cNP (m :: rest) best = min vm K := by
      simp only [minLoopNP]
      exact habs vm
    rw [hNP]
    by_cases hcut : min beta (min best v1) ≤ alpha
    · have hAB : minLoop cAB alpha (m :: rest) best beta = min best v1 := by
        simp only [minLoop]
        rw [if_pos hcut]
      rw [hAB]
      rcases lt_or_le alpha vm with hvm1 | hvm1
      · rcases lt_or_le vm beta with hvm2 | hvm2
        · have h3 := H3 hvm1 hvm2
          exact ⟨fun h => ⟨by omega, by omega⟩, fun h => by omega, fun h h' => by omega⟩
        · obtain ⟨h2a, h2b⟩ := H2 hvm2
          exact ⟨fun h => ⟨by omega, by omega⟩, fun h => by omega, fun h h' => by omega⟩
      · obtain ⟨h1a, h1b⟩ := H1 hvm1
        exact ⟨fun h => ⟨by omega, by omega⟩, fun h => by omega, fun h h' => by omega⟩
    · have hAB : minLoop cAB alpha (m :: rest) best beta =
          minLoop cAB alpha rest (min best v1) (min beta (min best v1)) := by
        simp only [minLoop]
        rw [if_neg hcut]
      rw [hAB]
      have hwin : alpha < min beta (min best v1) := by omega
      obtain ⟨I1, I2, I3⟩ := ih (min best v1) alpha (min beta (min best v1)) hwin
      rw [habs v1] at I1 I2 I3
      set r := minLoop cAB alpha rest (min best v1) (min beta (min best v1)) with hrdef
      rcases lt_or_le alpha vm with hvm1 | hvm1
      · rcases lt_or_le vm beta with hvm2 | hvm2
        · have h3 := H3 hvm1 hvm2
          refine ⟨fun h => ?_, fun h => by omega, fun h h' => ?_⟩
          · obtain ⟨i1a, i1b⟩ := I1 (by omega)
            exact ⟨by omega, by omega⟩
          · by_cases hV : min v1 K < min beta (min best v1)
            · have i3 := I3 (by omega) hV
              omega
            · obtain ⟨i2a, i2b⟩ := I2 (by omega)
              omega
        · obtain ⟨h2a, h2b⟩ := H2 hvm2
          refine ⟨fun h => ?_, fun h => ?_, fun h h' => ?_⟩
          · obtain ⟨i1a, i1b⟩ := I1 (by omega)
            exact ⟨by omega, by omega⟩
          · obtain ⟨i2a, i2b⟩ := I2 (by omega)
            exact ⟨by omega, by omega⟩
          · by_cases hV : min v1 K < min beta (min best v1)
            · have i3 := I3 (by omega) hV
              omega
            · obtain ⟨i2a, i2b⟩ := I2 (by omega)
              omega
      · obtain ⟨h1a, h1b⟩ := H1 hvm1
        exact absurd (by omega : min beta (min best v1) ≤ alpha) hcut

/-- The pruned `engine.ts` search approximates the unpruned one in the
fail-soft sense, for every valid window. -/
lemma minimax_abOk (R : Rules Pos Move) :
    ∀ (d : Nat) (p : Pos) (mx : Bool) (alpha beta : Int), alpha < beta →
      abOk (minimaxNP R d p mx) (minimax R d p alpha beta mx) alpha beta := by
  intro d
  induction d with
  | zero =>
    intro p mx alpha beta hab
    cases mx <;>
      exact ⟨fun h => ⟨le_refl _, h⟩, fun h => ⟨h, le_refl _⟩, fun _ _ => rfl⟩
  | succ d ih =>
    intro p mx alpha beta hab
    cases mx
    · exact minLoop_abOk _ _ (fun m a b h => ih (R.apply p m) true a b h)
        (R.moves p) 9999 alpha beta hab
    · exact maxLoop_abOk _ _ (fun m a b h => ih (R.apply p m) false a b h)
        (R.moves p) (-9999) alpha beta hab

/-- The unpruned max loop stays within bounds containing its seed and all
child values. -/
lemma maxLoopNP_bounds (child : Move → Int) (lo hi : Int)
    (hch : ∀ m, lo ≤ child m ∧ child m ≤ hi) :
    ∀ (ms : List Move) (b : Int), lo ≤ b → b ≤ hi →
      lo ≤ maxLoopNP child ms b ∧ maxLoopNP child ms b ≤ hi := by
  intro ms
  induction ms with
  | nil => intro b h1 h2; exact ⟨h1, h2⟩
  | cons m rest ih =>
    intro b h1 h2
    have hm := hch m
    exact ih (max b (child m)) (by omega) (by omega)

/-- The unpruned min loop stays within bounds containing its seed and all
child values. -/
lemma minLoopNP_bounds (child : Move → Int) (lo hi : Int)
    (hch : ∀ m, lo ≤ child m ∧ child m ≤ hi) :
    ∀ (ms : List Move) (b : Int), lo ≤ b → b ≤ hi →
      lo ≤ minLoopNP child ms b ∧ minLoopNP child ms b ≤ hi := by
  intro ms
  induction ms with
  | nil => intro b h1 h2; exact ⟨h1, h2⟩
  | cons m rest ih =>
    intro b h1 h2
    have hm := hch m
    exact ih (min b (child m)) (by omega) (by omega)

/-- When every position evaluates within ±9998 (true of every `chess.js`
position: total material never reaches 9998), all unpruned search values
lie within the sentinels ±9999. -/
lemma minimaxNP_bounds (R : Rules Pos Move)
    (hb : ∀ q, -9998 ≤ evaluateBoard (R.view q) ∧ evaluateBoard (R.view q) ≤ 9998) :
    ∀ (d : Nat) (p : Pos) (mx : Bool),
      -9999 ≤ minimaxNP R d p mx ∧ minimaxNP R d p mx ≤ 9999 := by
  intro d
  induction d with
  | zero =>
    intro p mx
    have := hb p
    cases mx <;> simp only [minimaxNP] <;> omega
  | succ d ih =>
    intro p mx
    cases mx
    · exact minLoopNP_bounds _ (-9999) 9999 (fun m => ih (R.apply p m) true)
        (R.moves p) 9999 (by omega) (by omega)
    · exact maxLoopNP_bounds _ (-9999) 9999 (fun m => ih (R.apply p m) false)
        (R.moves p) (-9999) (by omega) (by omega)

/-- With the full initial window, pruned and unpruned searches agree
whenever evaluations are bounded by ±9998. -/
lemma minimax_full_window (R : Rules Pos Move)
    (hb : ∀ q, -9998 ≤ evaluateBoard (R.view q) ∧ evaluateBoard (R.view q) ≤ 9998)
    (d : Nat) (p : Pos) (mx : Bool) :
    minimax R d p (-10000) 10000 mx = minimaxNP R d p mx := by
  have hbd := minimaxNP_bounds R hb d p mx
  exact (minimax_abOk R d p mx (-10000) 10000 (by omega)).2.2 (by omega) (by omega)

/-- Under the same bounds the pruned and unpruned root scores agree. -/
lemma rootScore_eq_NP (R : Rules Pos Move)
    (hb : ∀ q, -9998 ≤ evaluateBoard (R.view q) ∧ evaluateBoard (R.view q) ≤ 9998)
    (difficulty : String) (p : Pos) (m : Move) :
    rootScore R difficulty p m = rootScoreNP R difficulty p m := by
  simp only [rootScore, rootScoreNP]
  exact minimax_full_window R hb _ _ false

/-! ### Transfer of the pruning equivalence to the `chess-ai` search

The `chess-ai` search is simulated by its integer image `evalBInt` under
`jproj` (faithful as long as all finite values stay within ±9998, which
bounded evaluations guarantee); the fail-soft machinery above settles the
integer image, with the window (-9999, 9999) closed on the value range so
the trichotomy forces equality even at the sentinels. -/

/-- On faithful values, `jle` is the projected `≤`. -/
lemma jle_proj {a b : JVal} (ha : JGood a) (hb : JGood b) :
    jle a b = true ↔ jproj a ≤ jproj b := by
  cases a <;> cases b <;> simp [jle, jproj, JGood] at * <;> omega

/-- `jmax` projects to `max` and preserves faithfulness. -/
lemma jmax_proj {a b : JVal} (ha : JGood a) (hb : JGood b) :
    JGood (jmax a b) ∧ jproj (jmax a b) = max (jproj a) (jproj b) := by
  by_cases h : jle a b = true
  · have := (jle_proj ha hb).1 h
    constructor
    · simp [jmax, h, hb]
    · simp [jmax, h]
      omega
  · have : ¬(jproj a ≤ jproj b) := fun hc => h ((jle_proj ha hb).2 hc)
    constructor
    · simp [jmax, h, ha]
    · simp [jmax, h]
      omega

/-- `jmin` projects to `min` and preserves faithfulness. -/
lemma jmin_proj {a b : JVal} (ha : JGood a) (hb : JGood b) :
    JGood (jmin a b) ∧ jproj (jmin a b) = min (jproj a) (jproj b) := by
  by_cases h : jle a b = true
  · have := (jle_proj ha hb).1 h
    constructor
    · simp [jmin, h, ha]
    · simp [jmin, h]
      omega
  · have : ¬(jproj a ≤ jproj b) := fun hc => h ((jle_proj ha hb).2 hc)
    constructor
    · simp [jmin, h, hb]
    · simp [jmin, h]
      omega

/-- `jneg` projects to negation and preserves faithfulness. -/
lemma jneg_proj {a : JVal} (ha : JGood a) :
    JGood (jneg a) ∧ jproj (jneg a) = -(jproj a) := by
  cases a <;> simp [jneg, jproj, JGood] at * <;> omega

/-- `jproj` is injective on faithful values. -/
lemma jproj_inj {a b : JVal} (ha : JGood a) (hb : JGood b)
    (h : jproj a = jproj b) : a = b := by
  cases a <;> cases b <;> simp [jproj, JGood] at * <;> omega

/-- The pruned `chess-ai` maximizing loop is simulated by the integer
maximizing loop. -/
lemma jmaxLoop_sim (childJ : Move → JVal → JVal → JVal)
    (childI : Move → Int → Int → Int) (beta : JVal) (hbet : JGood beta)
    (hch : ∀ m (a b : JVal), JGood a → JGood b →
      JGood (childJ m a b) ∧ jproj (childJ m a b) = childI m (jproj a) (jproj b)) :
    ∀ (ms : List Move) (best alpha : JVal), JGood best → JGood alpha →
      JGood (jmaxLoop childJ beta ms best alpha) ∧
        jproj (jmaxLoop childJ beta ms best alpha)
          = maxLoop childI (jproj beta) ms (jproj best) (jproj alpha) := by
  intro ms
  induction ms with
  | nil => intro best alpha hbest halpha; exact ⟨hbest, rfl⟩
  | cons m rest ih =>
    intro best alpha hbest halpha
    obtain ⟨hgv, hpv⟩ := hch m alpha beta halpha hbet
    obtain ⟨hg2, hp2⟩ := jmax_proj hbest hgv
    obtain ⟨hg3, hp3⟩ := jmax_proj halpha hg2
    simp only [jmaxLoop, maxLoop]
    by_cases hcut : jle beta (jmax alpha (jmax best (childJ m alpha beta))) = true
    · have hcutI : jproj beta ≤
          max (jproj alpha) (max (jproj best) (childI m (jproj alpha) (jproj beta))) := by
        have := (jle_proj hbet hg3).1 hcut
        rw [hp3, hp2, hpv] at this
        exact this
      rw [if_pos hcut, if_pos hcutI]
      exact ⟨hg2, by rw [hp2, hpv]⟩
    · have hcutI : ¬(jproj beta ≤
          max (jproj alpha) (max (jproj best) (childI m (jproj alpha) (jproj beta)))) := by
        intro hc
        rw [← hpv, ← hp2, ← hp3] at hc
        exact hcut ((jle_proj hbet hg3).2 hc)
      rw [if_neg hcut, if_neg hcutI]
      obtain ⟨hgr, hpr⟩ := ih (jmax best (childJ m alpha beta))
        (jmax alpha (jmax best (childJ m alpha beta))) hg2 hg3
      refine ⟨hgr, ?_⟩
      rw [hpr, hp3, hp2, hpv]

/-- The pruned `chess-ai` minimizing loop is simulated by the integer
minimizing loop. -/
lemma jminLoop_sim (childJ : Move → JVal → JVal → JVal)
    (childI : Move → Int → Int → Int) (alpha : JVal) (halp : JGood alpha)
    (hch : ∀ m (a b : JVal), JGood a → JGood b →
      JGood (childJ m a b) ∧ jproj (childJ m a b) = childI m (jproj a) (jproj b)) :
    ∀ (ms : List Move) (best beta : JVal), JGood best → JGood beta →
      JGood (jminLoop childJ alpha ms best beta) ∧
        jproj (jminLoop childJ alpha ms best beta)
          = minLoop childI (jproj alpha) ms (jproj best) (jproj beta) := by
  intro ms
  induction ms with
  | nil => intro best beta hbest hbeta; exact ⟨hbest, rfl⟩
  | cons m rest ih =>
    intro best beta hbest hbeta
    obtain ⟨hgv, hpv⟩ := hch m alpha beta halp hbeta
    obtain ⟨hg2, hp2⟩ := jmin_proj hbest hgv
    obtain ⟨hg3, hp3⟩ := jmin_proj hbeta hg2
    simp only [jminLoop, minLoop]
    by_cases hcut : jle (jmin beta (jmin best (childJ m alpha beta))) alpha = true
    · have hcutI :
          min (jproj beta) (min (jproj best) (childI m (jproj alpha) (jproj beta)))
            ≤ jproj alpha := by
        have := (jle_proj hg3 halp).1 hcut
        rw [hp3, hp2, hpv] at this
        exact this
      rw [if_pos hcut, if_pos hcutI]
      exact ⟨hg2, by rw [hp2, hpv]⟩
    · have hcutI : ¬(min (jproj beta)
          (min (jproj best) (childI m (jproj alpha) (jproj beta))) ≤ jproj alpha) := by
        intro hc
        rw [← hpv, ← hp2, ← hp3] at hc
        exact hcut ((jle_proj hg3 halp).2 hc)
      rw [if_neg hcut, if_neg hcutI]
      obtain ⟨hgr, hpr⟩ := ih (jmin best (childJ m alpha beta))
        (jmin beta (jmin best (childJ m alpha beta))) hg2 hg3
      refine ⟨hgr, ?_⟩
      rw [hpr, hp3, hp2, hpv]

/-- The pruned `chess-ai` search is simulated by its integer image, and
all its values are faithful, whenever evaluations are bounded. -/
lemma evaluateBoardB_sim (R : Rules Pos Move)
    (hbC : ∀ q, -9998 ≤ calculatePosition (R.view q) ∧ calculatePosition (R.view q) ≤ 9998) :
    ∀ (d : Nat) (p : Pos) (mx : Bool) (a b : JVal), JGood a → JGood b →
      JGood (evaluateBoardB R d p a b mx) ∧
        jproj (evaluateBoardB R d p a b mx) = evalBInt R d p (jproj a) (jproj b) mx := by
  intro d
  induction d with
  | zero =>
    intro p mx a b _ _
    cases mx <;> exact ⟨by simpa [JGood] using hbC p, rfl⟩
  | succ d ih =>
    intro p mx a b ha hb
    cases mx
    · exact jminLoop_sim _ _ a ha (fun m x y hx hy => ih (R.apply p m) true x y hx hy)
        (R.moves p) .posInf b trivial hb
    · exact jmaxLoop_sim _ _ b hb (fun m x y hx hy => ih (R.apply p m) false x y hx hy)
        (R.moves p) .negInf a trivial ha

/-- The unpruned `chess-ai` maximizing loop is simulated by the integer
one. -/
lemma jmaxLoopNP_sim (childJ : Move → JVal) (childI : Move → Int)
    (hch : ∀ m, JGood (childJ m) ∧ jproj (childJ m) = childI m) :
    ∀ (ms : List Move) (best : JVal), JGood best →
      JGood (jmaxLoopNP childJ ms best) ∧
        jproj (jmaxLoopNP childJ ms best) = maxLoopNP childI ms (jproj best) := by
  intro ms
  induction ms with
  | nil => intro best hbest; exact ⟨hbest, rfl⟩
  | cons m rest ih =>
    intro best hbest
    obtain ⟨hgv, hpv⟩ := hch m
    obtain ⟨hg2, hp2⟩ := jmax_proj hbest hgv
    simp only [jmaxLoopNP, maxLoopNP]
    obtain ⟨hgr, hpr⟩ := ih (jmax best (childJ m)) hg2
    refine ⟨hgr, ?_⟩
    rw [hpr, hp2, hpv]

/-- The unpruned `chess-ai` minimizing loop is simulated by the integer
one. -/
lemma jminLoopNP_sim (childJ : Move → JVal) (childI : Move → Int)
    (hch : ∀ m, JGood (childJ m) ∧ jproj (childJ m) = childI m) :
    ∀ (ms : List Move) (best : JVal), JGood best →
      JGood (jminLoopNP childJ ms best) ∧
        jproj (jminLoopNP childJ ms best) = minLoopNP childI ms (jproj best) := by
  intro ms
  induction ms with
  | nil => intro best hbest; exact ⟨hbest, rfl⟩
  | cons m rest ih =>
    intro best hbest
    obtain ⟨hgv, hpv⟩ := hch m
    obtain ⟨hg2, hp2⟩ := jmin_proj hbest hgv
    simp only [jminLoopNP, minLoopNP]
    obtain ⟨hgr, hpr⟩ := ih (jmin best (childJ m)) hg2
    refine ⟨hgr, ?_⟩
    rw [hpr, hp2, hpv]

/-- The unpruned `chess-ai` search is simulated by its integer image. -/
lemma evaluateBoardBNP_sim (R : Rules Pos Move)
    (hbC : ∀ q, -9998 ≤ calculatePosition (R.view q) ∧ calculatePosition (R.view q) ≤ 9998) :
    ∀ (d : Nat) (p : Pos) (mx : Bool),
      JGood (evaluateBoardBNP R d p mx) ∧
        jproj (evaluateBoardBNP R d p mx) = evalBIntNP R d p mx := by
  intro d
  induction d with
  | zero =>
    intro p mx
    cases mx <;> exact ⟨by simpa [JGood] using hbC p, rfl⟩
  | succ d ih =>
    intro p mx
    cases mx
    · exact jminLoopNP_sim _ _ (fun m => ih (R.apply p m) true) (R.moves p) .posInf trivial
    · exact jmaxLoopNP_sim _ _ (fun m => ih (R.apply p m) false) (R.moves p) .negInf trivial

/-- The integer image of the pruned `chess-ai` search approximates its
unpruned image in the fail-soft sense. -/
lemma evalBInt_abOk (R : Rules Pos Move) :
    ∀ (d : Nat) (p : Pos) (mx : Bool) (alpha beta : Int), alpha < beta →
      abOk (evalBIntNP R d p mx) (evalBInt R d p alpha beta mx) alpha beta := by
  intro d
  induction d with
  | zero =>
    intro p mx alpha beta hab
    cases mx <;>
      exact ⟨fun h => ⟨le_refl _, h⟩, fun h => ⟨h, le_refl _⟩, fun _ _ => rfl⟩
  | succ d ih =>
    intro p mx alpha beta hab
    cases mx
    · exact minLoop_abOk _ _ (fun m a b h => ih (R.apply p m) true a b h)
        (R.moves p) 9999 alpha beta hab
    · exact maxLoop_abOk _ _ (fun m a b h => ih (R.apply p m) false a b h)
        (R.moves p) (-9999) alpha beta hab

/-- Bounds for the unpruned integer image under bounded evaluations. -/
lemma evalBIntNP_bounds (R : Rules Pos Move)
    (hbC : ∀ q, -9998 ≤ calculatePosition (R.view q) ∧ calculatePosition (R.view q) ≤ 9998) :
    ∀ (d : Nat) (p : Pos) (mx : Bool),
      -9999 ≤ evalBIntNP R d p mx ∧ evalBIntNP R d p mx ≤ 9999 := by
  intro d
  induction d with
  | zero =>
    intro p mx
    have := hbC p
    cases mx <;> simp only [evalBIntNP] <;> omega
  | succ d ih =>
    intro p mx
    cases mx
    · exact minLoopNP_bounds _ (-9999) 9999 (fun m => ih (R.apply p m) true)
        (R.moves p) 9999 (by omega) (by omega)
    · exact maxLoopNP_bounds _ (-9999) 9999 (fun m => ih (R.apply p m) false)
        (R.moves p) (-9999) (by omega) (by omega)

/-- With the window (-9999, 9999) closed on the value range, pruning does
not change the integer image: the trichotomy forces equality at the
sentinels too. -/
lemma evalBInt_closed (R : Rules Pos Move)
    (hbC : ∀ q, -9998 ≤ calculatePosition (R.view q) ∧ calculatePosition (R.view q) ≤ 9998)
    (d : Nat) (p : Pos) (mx : Bool) :
    evalBInt R d p (-9999) 9999 mx = evalBIntNP R d p mx := by
  obtain ⟨A1, A2, A3⟩ := evalBInt_abOk R d p mx (-9999) 9999 (by omega)
  obtain ⟨hlo, hhi⟩ := evalBIntNP_bounds R hbC d p mx
  rcases lt_or_le (-9999 : Int) (evalBIntNP R d p mx) with h1 | h1
  · rcases lt_or_le (evalBIntNP R d p mx) 9999 with h2 | h2
    · exact A3 h1 h2
    · have := A2 (by omega)
      omega
  · have := A1 (by omega)
    omega

/-- With the full `(-Infinity, Infinity)` window, the pruned `chess-ai`
search equals its unpruned counterpart, whenever evaluations are
bounded. -/
lemma evaluateBoardB_full_window (R : Rules Pos Move)
    (hbC : ∀ q, -9998 ≤ calculatePosition (R.view q) ∧ calculatePosition (R.view q) ≤ 9998)
    (d : Nat) (p : Pos) (mx : Bool) :
    evaluateBoardB R d p .negInf .posInf mx = evaluateBoardBNP R d p mx := by
  obtain ⟨hg1, hp1⟩ := evaluateBoardB_sim R hbC d p mx .negInf .posInf trivial trivial
  obtain ⟨hg2, hp2⟩ := evaluateBoardBNP_sim R hbC d p mx
  refine jproj_inj hg1 hg2 ?_
  rw [hp1, hp2]
  exact evalBInt_closed R hbC d p mx

/-- Bounded `engine.ts` evaluations bound the `chess-ai` evaluator too
(they differ only by the turn sign). -/
lemma calc_bounds_of_eval (R : Rules Pos Move)
    (hb : ∀ q, -9998 ≤ evaluateBoard (R.view q) ∧ evaluateBoard (R.view q) ≤ 9998) :
    ∀ q, -9998 ≤ calculatePosition (R.view q) ∧ calculatePosition (R.view q) ≤ 9998 := by
  intro q
  have := hb q
  rw [calculatePosition_eq]
  cases hturn : (R.view q).turn <;> simp [sideSign] <;> omega

/-- Under the same bounds the pruned and unpruned `chess-ai` root scores
agree. -/
lemma rootScoreB_eq_NP (R : Rules Pos Move)
    (hb : ∀ q, -9998 ≤ evaluateBoard (R.view q) ∧ evaluateBoard (R.view q) ≤ 9998)
    (difficulty : String) (p : Pos) (m : Move) :
    rootScoreB R difficulty p m = rootScoreBNP R difficulty p m := by
  simp only [rootScoreB, rootScoreBNP]
  rw [evaluateBoardB_full_window R (calc_bounds_of_eval R hb)]

/-- C7: when every position's evaluation lies within ±9998 (as on every
real chess board), the alpha-beta searches of both variants, launched
with their full initial windows ((-10000, 10000) in `engine.ts`,
`(-Infinity, Infinity)` in the `chess-ai` variant), return exactly the
plain unpruned fixed-depth minimax value at every depth over the same
move order, and both `getBestMove`s pick the same root move with pruning
as without: the `beta <= alpha` cutoff never changes the final
decision. -/
theorem C7_pruning_exact {Pos Move : Type} (R : Rules Pos Move)
    (hb : ∀ q, -9998 ≤ evaluateBoard (R.view q) ∧ evaluateBoard (R.view q) ≤ 9998) :
    ((∀ (d : Nat) (p : Pos) (mx : Bool),
        minimax R d p (-10000) 10000 mx = minimaxNP R d p mx) ∧
      (∀ (p : Pos) (difficulty : String) (rnd : Nat),
        getBestMove R p difficulty rnd = getBestMoveNP R p difficulty rnd)) ∧
      ((∀ (d : Nat) (p : Pos) (mx : Bool),
          evaluateBoardB R d p .negInf .posInf mx = evaluateBoardBNP R d p mx) ∧
        (∀ (p : Pos) (difficulty : String) (rnd : Nat),
          getBestMoveB R p difficulty rnd = getBestMoveBNP R p difficulty rnd)) := by
  constructor
  · refine ⟨minimax_full_window R hb, ?_⟩
    intro p difficulty rnd
    have hsc : (fun m => rootScore R difficulty p m) = fun m => rootScoreNP R difficulty p m := by
      funext m
      exact rootScore_eq_NP R hb difficulty p m
    simp [getBestMove, getBestMoveNP, hsc]
  · refine ⟨fun d p mx => evaluateBoardB_full_window R (calc_bounds_of_eval R hb) d p mx, ?_⟩
    intro p difficulty rnd
    have hsc : (fun m => rootScoreB R difficulty p m) = fun m => rootScoreBNP R difficulty p m := by
      funext m
      exact rootScoreB_eq_NP R hb difficulty p m
    simp [getBestMoveB, getBestMoveBNP, hsc]

/-- C7 (witness): pruned and unpruned searches agree on the demo instance,
in both variants. -/
theorem C7_witness :
    (minimax demoRules 2 0 (-10000) 10000 true = minimaxNP demoRules 2 0 true ∧
      getBestMove demoRules 0 "Master" 0 = getBestMoveNP demoRules 0 "Master" 0) ∧
      (evaluateBoardB demoRules 2 0 .negInf .posInf true = evaluateBoardBNP demoRules 2 0 true ∧
        getBestMoveB demoRules 0 "Master" 0 = getBestMoveBNP demoRules 0 "Master" 0) :=
  ⟨⟨(C7_pruning_exact demoRules (by decide)).1.1 2 0 true,
      (C7_pruning_exact demoRules (by decide)).1.2 0 "Master" 0⟩,
    ⟨(C7_pruning_exact demoRules (by decide)).2.1 2 0 true,
      (C7_pruning_exact demoRules (by decide)).2.2 0 "Master" 0⟩⟩

/-! ## The sign convention `getBestMove` actually implements (claim C1) -/

/-- Negating the children and the seed turns the min loop into the max
loop. -/
lemma maxLoopNP_neg (cNP : Move → Int) :
    ∀ (ms : List Move) (b : Int),
      maxLoopNP (fun m => -(cNP m)) ms (-b) = -(minLoopNP cNP ms b) := by
  intro ms
  induction ms with
  | nil => intro b; rfl
  | cons m rest ih =>
    intro b
    simp only [maxLoopNP, minLoopNP]
    rw [max_neg_neg, ih]

/-- Negating the children and the seed turns the max loop into the min
loop. -/
lemma minLoopNP_neg (cNP : Move → Int) :
    ∀ (ms : List Move) (b : Int),
      minLoopNP (fun m => -(cNP m)) ms (-b) = -(maxLoopNP cNP ms b) := by
  intro ms
  induction ms with
  | nil => intro b; rfl
  | cons m rest ih =>
    intro b
    simp only [maxLoopNP, minLoopNP]
    rw [min_neg_neg, ih]

/-- The engine's unpruned search value is the NEGATED spec minimax value in
which the maximizing flag plays Black: flag `true` is Black's turn, flag
`false` is White's turn.  So the engine's maximizer optimizes Black's
outcome at every ply, whoever is actually to move. -/
lemma minimaxNP_eq_neg_specMM (R : Rules Pos Move) :
    ∀ (d : Nat) (p : Pos),
      minimaxNP R d p true = -(specMM R d p Color.b) ∧
        minimaxNP R d p false = -(specMM R d p Color.w) := by
  intro d
  induction d with
  | zero => intro p; exact ⟨rfl, rfl⟩
  | succ d ih =>
    intro p
    constructor
    · have hfun : (fun m => minimaxNP R d (R.apply p m) false) =
          fun m => -(specMM R d (R.apply p m) Color.w) := by
        funext m
        exact (ih (R.apply p m)).2
      show maxLoopNP (fun m => minimaxNP R d (R.apply p m) false) (R.moves p) (-9999) =
        -(minLoopNP (fun m => specMM R d (R.apply p m) Color.w) (R.moves p) 9999)
      rw [hfun]
      exact maxLoopNP_neg _ (R.moves p) 9999
    · have hfun : (fun m => minimaxNP R d (R.apply p m) true) =
          fun m => -(specMM R d (R.apply p m) Color.b) := by
        funext m
        exact (ih (R.apply p m)).1
      show minLoopNP (fun m => minimaxNP R d (R.apply p m) true) (R.moves p) 9999 =
        -(maxLoopNP (fun m => specMM R d (R.apply p m) Color.b) (R.moves p) (-9999))
      rw [hfun]
      have : (9999 : Int) = -(-9999) := by omega
      rw [this]
      exact minLoopNP_neg _ (R.moves p) (-9999)

/-- The unpruned root score is exactly the Black-perspective reference
score. -/
lemma rootScoreNP_eq_black (R : Rules Pos Move) (difficulty : String) (p : Pos) (m : Move) :
    rootScoreNP R difficulty p m = blackRootScore R difficulty p m := by
  simp only [rootScoreNP, blackRootScore, sideSign]
  have := (minimaxNP_eq_neg_specMM R
    ((if difficulty = "Easy" then 1 else if difficulty = "Hard" then 2 else 3) - 1)
    (R.apply p m)).2
  omega

/-- Under turn alternation, the `chess-ai` root score at Easy is the
root-side-perspective value of the position after the move. -/
lemma rootScoreB_easy (R : Rules Pos Move) (p : Pos) (m : Move)
    (halt : (R.view (R.apply p m)).turn = flipColor (R.view p).turn) :
    rootScoreB R "Easy" p m = JVal.fin (specRootScore R 1 p m) := by
  have h0 : rootScoreB R "Easy" p m
      = jneg (evaluateBoardB R 0 (R.apply p m) .negInf .posInf false) := rfl
  have hleaf : evaluateBoardB R 0 (R.apply p m) .negInf .posInf false
      = JVal.fin (calculatePosition (R.view (R.apply p m))) := rfl
  rw [h0, hleaf, calculatePosition_eq, halt]
  simp only [specRootScore, specMM, jneg]
  cases hs : (R.view p).turn <;> simp [sideSign, flipColor] <;> omega

/-- C1 (amended): neither variant applies the root-side convention; each
has its own, different, behavior.  (a) `engine.ts`: for Easy/Hard/Master
and bounded evaluations, whenever some root move beats the -9999
sentinel, `getBestMove` returns the first root move maximizing the
depth-limited plain minimax value taken from BLACK's fixed perspective
(White to move and maximizing the White-positive material under the root
move) — one convention applied uniformly at every ply and at the root
comparison, but anchored to Black, not to the side to move at the root,
so it plays for the root side exactly when Black is to move.  (b) the
`chess-ai` variant is not uniform across depths (see the counterexample
at Hard): at Easy, with alternating turns, it returns the first root
move maximizing the ROOT-side-perspective value — correct for either
side at depth 1, which is incompatible with the Black-anchored behavior
it would need to mirror (a). -/
theorem C1_sign_convention {Pos Move : Type} (R : Rules Pos Move) (p : Pos)
    (difficulty : String) (rnd : Nat)
    (hd : difficulty = "Easy" ∨ difficulty = "Hard" ∨ difficulty = "Master")
    (hb : ∀ q, -9998 ≤ evaluateBoard (R.view q) ∧ evaluateBoard (R.view q) ≤ 9998) :
    ((∃ m ∈ R.moves p, -9999 < blackRootScore R difficulty p m) →
      ∃ l1 m0 l2, R.moves p = l1 ++ m0 :: l2 ∧
        getBestMove R p difficulty rnd = some m0 ∧
        (∀ x ∈ R.moves p,
          blackRootScore R difficulty p x ≤ blackRootScore R difficulty p m0) ∧
        (∀ x ∈ l1, blackRootScore R difficulty p x < blackRootScore R difficulty p m0)) ∧
      ((∀ m' ∈ R.moves p, (R.view (R.apply p m')).turn = flipColor (R.view p).turn) →
        R.moves p ≠ [] →
        ∃ l1 m0 l2, R.moves p = l1 ++ m0 :: l2 ∧
          getBestMoveB R p "Easy" rnd = some m0 ∧
          (∀ x ∈ R.moves p, specRootScore R 1 p x ≤ specRootScore R 1 p m0) ∧
          (∀ x ∈ l1, specRootScore R 1 p x < specRootScore R 1 p m0)) := by
  have hbg : difficulty ≠ "Beginner" := by
    rcases hd with rfl | rfl | rfl <;> decide
  constructor
  · intro hex
    have hne : R.moves p ≠ [] := by
      rcases hex with ⟨m, hm, _⟩
      exact List.ne_nil_of_mem hm
    have hlen : ¬((R.moves p).length = 0) := by
      simpa [List.length_eq_zero] using hne
    have hbs : ∀ m ∈ R.moves p,
        rootScore R difficulty p m = blackRootScore R difficulty p m := by
      intro m _
      rw [rootScore_eq_NP R hb, rootScoreNP_eq_black]
    have hcongr := rootLoop_congr (R.moves p) none (-9999) hbs
    obtain ⟨l1, m0, l2, hdec, hres, _, hall, hpre⟩ :=
      rootLoop_first (fun m => blackRootScore R difficulty p m) (R.moves p) none (-9999) hex
    refine ⟨l1, m0, l2, hdec, ?_, hall, hpre⟩
    simp [getBestMove, hlen, hbg, hcongr, hres]
  · intro halt hne
    have hlen : ¬((R.moves p).length = 0) := by
      simpa [List.length_eq_zero] using hne
    have hsc : ∀ m ∈ R.moves p,
        rootScoreB R "Easy" p m = JVal.fin (specRootScore R 1 p m) :=
      fun m hm => rootScoreB_easy R p m (halt m hm)
    rcases List.exists_cons_of_ne_nil hne with ⟨mh, t, hmt⟩
    have hmh : mh ∈ R.moves p := by simp [hmt]
    have hex : ∃ m ∈ R.moves p, jlt JVal.negInf (rootScoreB R "Easy" p m) = true :=
      ⟨mh, hmh, by rw [hsc mh hmh]; exact jlt_negInf_fin _⟩
    obtain ⟨l1, m0, l2, hdec, hres, _, hall, hpre⟩ :=
      jrootLoop_first (fun m => rootScoreB R "Easy" p m) (R.moves p) none .negInf hex
    have hm0 : m0 ∈ R.moves p := by
      rw [hdec]
      simp
    refine ⟨l1, m0, l2, hdec, ?_, ?_, ?_⟩
    · simp [getBestMoveB, hlen, hres]
    · intro x hx
      have hle := hall x hx
      rw [hsc x hx, hsc m0 hm0] at hle
      exact jle_fin.1 hle
    · intro x hx
      have hxm : x ∈ R.moves p := by
        rw [hdec]
        exact List.mem_append_left _ hx
      have hltx := hpre x hx
      rw [hsc x hxm, hsc m0 hm0] at hltx
      exact jlt_fin.1 hltx

/-- C1 (witness): the demo root at Easy — `engine.ts` returns the first
Black-perspective maximum (the quiet move), while the `chess-ai` variant
returns the first root-side-perspective maximum (the capture). -/
theorem C1_witness :
    (∃ l1 m0 l2, demoRules.moves 0 = l1 ++ m0 :: l2 ∧
      getBestMove demoRules 0 "Easy" 0 = some m0 ∧
      (∀ x ∈ demoRules.moves 0,
        blackRootScore demoRules "Easy" 0 x ≤ blackRootScore demoRules "Easy" 0 m0) ∧
      (∀ x ∈ l1, blackRootScore demoRules "Easy" 0 x < blackRootScore demoRules "Easy" 0 m0)) ∧
      (∃ l1 m0 l2, demoRules.moves 0 = l1 ++ m0 :: l2 ∧
        getBestMoveB demoRules 0 "Easy" 0 = some m0 ∧
        (∀ x ∈ demoRules.moves 0, specRootScore demoRules 1 0 x ≤ specRootScore demoRules 1 0 m0) ∧
        (∀ x ∈ l1, specRootScore demoRules 1 0 x < specRootScore demoRules 1 0 m0)) :=
  ⟨(C1_sign_convention demoRules 0 "Easy" 0 (Or.inl rfl) (by decide)).1
      ⟨1, by decide, by decide⟩,
    (C1_sign_convention demoRules 0 "Easy" 0 (Or.inl rfl) (by decide)).2
      (by decide) (by decide)⟩

/-! ## The evaluators against the spec's material-sum formula (claim C3) -/

/-- Additive left fold is the seed plus the sum of the images. -/
lemma foldl_add_eq_sum {α : Type} (f : α → Int) :
    ∀ (l : List α) (a0 : Int), l.foldl (fun a x => a + f x) a0 = a0 + (l.map f).sum := by
  intro l
  induction l with
  | nil => intro a0; simp
  | cons x xs ih => intro a0; simp [ih, add_assoc]

/-- Indexing a list at `0, …, length - 1` with a default recovers the
list. -/
lemma range_map_getD {α : Type} :
    ∀ (l : List α) (d : α), (List.range l.length).map (fun i => l.getD i d) = l := by
  intro l
  induction l with
  | nil => intro d; rfl
  | cons x xs ih =>
    intro d
    rw [List.length_cons, List.range_succ_eq_map, List.map_cons, List.map_map]
    have hcomp : ((fun i => (x :: xs).getD i d) ∘ Nat.succ) = fun i => xs.getD i d := rfl
    rw [hcomp, ih d]
    rfl

/-- `getPieceValue` computes the spec's per-square score. -/
lemma getPieceValue_eq_spec (op : Option Piece) : getPieceValue op = pieceScoreSpec op := by
  rcases op with _ | ⟨t, c⟩
  · rfl
  · cases t <;> cases c <;> rfl

/-- Both evaluators' double loop over squares 0..7 x 0..7 computes the
spec's sum over all squares, for any pointwise-spec per-square scorer,
on an 8x8 board. -/
lemma doubleFold_spec (score : Option Piece → Int)
    (hsc : ∀ op, score op = pieceScoreSpec op)
    (bd : Board) (h8 : bd.length = 8) (hrow : ∀ row ∈ bd, row.length = 8) :
    (List.range 8).foldl
        (fun acc i =>
          (List.range 8).foldl (fun acc2 j => acc2 + score (bAt bd i j)) acc)
        0
      = specMaterial bd := by
  have hscfun : score = pieceScoreSpec := funext hsc
  have hinner : ∀ (acc : Int) (row : List (Option Piece)), row.length = 8 →
      (List.range 8).foldl (fun acc2 j => acc2 + score (row.getD j none)) acc
        = acc + (row.map pieceScoreSpec).sum := by
    intro acc row hr
    rw [foldl_add_eq_sum (fun j => score (row.getD j none))]
    congr 1
    have : (List.range 8).map (fun j => score (row.getD j none))
        = ((List.range row.length).map (fun j => row.getD j none)).map score := by
      rw [List.map_map, hr]
      rfl
    rw [this, range_map_getD, hscfun]
  have houter : (List.range 8).foldl
      (fun acc i =>
        (List.range 8).foldl (fun acc2 j => acc2 + score (bAt bd i j)) acc)
      0
      = (List.range 8).foldl
        (fun acc i => acc + ((bd.getD i []).map pieceScoreSpec).sum) 0 := by
    refine List.foldl_ext _ _ 0 ?_
    intro acc i hi
    have hilen : i < bd.length := by
      rw [h8]
      simpa using List.mem_range.1 hi
    have hmem : bd.getD i [] ∈ bd := by
      rw [List.getD_eq_getElem bd [] hilen]
      exact List.getElem_mem hilen
    exact hinner acc (bd.getD i []) (hrow _ hmem)
  rw [houter, foldl_add_eq_sum (fun i => ((bd.getD i []).map pieceScoreSpec).sum)]
  have : (List.range 8).map (fun i => ((bd.getD i []).map pieceScoreSpec).sum)
      = ((List.range bd.length).map (fun i => bd.getD i [])).map
        (fun row => (row.map pieceScoreSpec).sum) := by
    rw [List.map_map, h8]
    rfl
  rw [this, range_map_getD]
  simp [specMaterial]

/-- C3 (amended): on an 8x8 board, `engine.ts`'s `evaluateBoard` returns
the spec's White-positive material sum and is side-to-move independent;
the `chess-ai` evaluator `calculatePosition` returns that sum only when
White is to move and its NEGATION when Black is to move, so it is
side-to-move dependent. -/
theorem C3_material {bd : Board} (h8 : bd.length = 8)
    (hrow : ∀ row ∈ bd, row.length = 8) :
    (∀ t : Color, evaluateBoard ⟨bd, t⟩ = specMaterial bd) ∧
      (∀ t : Color, calculatePosition ⟨bd, t⟩ =
        if t = Color.w then specMaterial bd else -(specMaterial bd)) := by
  have hcalc : ∀ op, calcPieceScore op = pieceScoreSpec op := by
    intro op
    rcases op with _ | ⟨tp, c⟩
    · rfl
    · cases tp <;> cases c <;> rfl
  constructor
  · intro t
    exact doubleFold_spec getPieceValue getPieceValue_eq_spec bd h8 hrow
  · intro t
    have hcore := doubleFold_spec calcPieceScore hcalc bd h8 hrow
    simp only [calculatePosition]
    cases t
    · simpa using hcore
    · rw [hcore]

/-- C3 (witness): the queen board is 8x8; its material is 90 for either
side to move under `evaluateBoard`, while `calculatePosition` flips the
sign for Black. -/
theorem C3_witness :
    (∀ t : Color, evaluateBoard ⟨queenBoard, t⟩ = specMaterial queenBoard) ∧
      (∀ t : Color, calculatePosition ⟨queenBoard, t⟩ =
        if t = Color.w then specMaterial queenBoard else -(specMaterial queenBoard)) :=
  C3_material (by decide) (by decide)

end Engine
